import Mathlib

/-!
Verification of the FormData ⇄ nested-object codec of `azure-net-tools`
(`src/formdata/FormDataUtil.ts`).

The decode direction (`FormDataUtil.toObject`) is embedded over an explicit
value type `DVal` that models the JavaScript values the decoder builds:
strings, file blobs, plain objects (insertion-ordered association lists of
own enumerable string-keyed properties), and arrays.  JavaScript arrays can
carry non-index expando properties (the source assigns `current[index] = value`
where `index` may be `NaN` or negative, which creates a string-keyed property
on the array object), so the array constructor carries both the element list
(with `none` for holes) and a property list.  In the base embedding property
reads are own-property reads (an absent property reads as `undefined`,
`none`); the throwing corner of the walk — assigning a fresh container to an
array's exotic `length` property raises `RangeError: Invalid array length` —
is modelled by the error-aware `walkAssignE`/`toObjectE`, and keys that the
source would read through the prototype chain (`toString`, `__proto__`, ...)
are excluded by hypothesis from the statements whose truth depends on
own-property reads.

The encode direction (`FormDataUtil.fromObject`) is embedded twice, at two
levels of abstraction:
* over inductive trees `JsVal` (acyclic inputs; the `seen` cycle-tracking set
  is carried literally, with structural equality standing in for JavaScript
  reference identity — distinct tree positions are distinct objects, and a
  node can never be structurally equal to a strict ancestor, so the check
  fires in the model exactly when it fires in the source: never);
* over an explicit heap (`HNode`, references `HVal.ref`) for the
  cycle-detection and date claims, where object identity, cyclic stores and
  invalid `Date` objects (whose `toISOString()` throws `RangeError`) are
  representable.
-/

/-- A value stored in the flat multi-map: a text value or an opaque file blob
(identified by an opaque id, never introspected). -/
inductive FdVal where
  | fstr (s : String)
  | fblob (id : Nat)
deriving DecidableEq, Repr

/-- One entry of the flat multi-map: a bracket-notation key and a value. -/
abbrev Entry := String × FdVal

/-- A JavaScript value as built by `FormDataUtil.toObject`: a string, a file
blob (with expando properties), a plain object (insertion-ordered own
properties), or an array (element list, `none` marking holes, plus non-index
expando properties). -/
inductive DVal where
  | dstr (s : String)
  | dblob (id : Nat) (props : List (String × DVal))
  | dobj (fields : List (String × DVal))
  | darr (elems : List (Option DVal)) (props : List (String × DVal))
deriving Repr

/-- Own-property lookup in an insertion-ordered property list. -/
def assocGet : List (String × DVal) → String → Option DVal
  | [], _ => none
  | (k', v) :: rest, k => if k' = k then some v else assocGet rest k

/-- Own-property write: update in place if the key exists (keeping its
position, as JavaScript does), otherwise append (insertion order). -/
def assocSet : List (String × DVal) → String → DVal → List (String × DVal)
  | [], k, v => [(k, v)]
  | (k', v') :: rest, k, v =>
      if k' = k then (k, v) :: rest else (k', v') :: assocSet rest k v

/-- Numeric value of a list of decimal digit characters. -/
def digitsToNat (cs : List Char) : Nat :=
  cs.foldl (fun a c => a * 10 + (c.toNat - 48)) 0

/-- The test `/^\d+$/.test(key)` of `FormDataUtil.toObject` line 21: a
non-empty string made only of decimal digits. -/
def isAllDigits (k : String) : Bool :=
  !k.data.isEmpty && k.data.all Char.isDigit

/-- A canonical array-index string (the strings under which JavaScript stores
array elements): all digits, no leading zero except `"0"` itself, value below
`2^32 - 1`.  Any other key addressed on an array is an expando property. -/
def canonIndex (k : String) : Option Nat :=
  if !k.data.isEmpty && k.data.all Char.isDigit
      && (k = "0" || k.data.head? != some '0')
      && digitsToNat k.data < 4294967295 then
    some (digitsToNat k.data)
  else none

/-- `parseInt(s, 10)`: skip leading whitespace, optional sign, then the
longest decimal-digit run; no digits means `NaN` (`none`). -/
def jsParseInt (s : String) : Option Int :=
  let cs := s.data.dropWhile fun c => c = ' ' || c = '\t' || c = '\n' || c = '\r'
  let signAndRest : Int × List Char :=
    match cs with
    | '-' :: rest => (-1, rest)
    | '+' :: rest => (1, rest)
    | _ => (1, cs)
  let digits := signAndRest.2.takeWhile Char.isDigit
  if digits.isEmpty then none
  else some (signAndRest.1 * (digitsToNat digits : Int))

/-- Property read `current[key]` (own properties; array reads resolve
canonical index strings to elements, holes and out-of-range reads are
`undefined`). -/
def dGet : DVal → String → Option DVal
  | .dobj fields, k => assocGet fields k
  | .darr elems props, k =>
      match canonIndex k with
      | some n => elems.getD n none
      | none => assocGet props k
  | .dblob _ props, k => assocGet props k
  | .dstr _, _ => none

/-- Set element `n` of an array's element list, extending with holes
(`undefined` filler) when `n` is past the end. -/
def elemSet (l : List (Option DVal)) (n : Nat) (v : DVal) : List (Option DVal) :=
  (l ++ List.replicate (n + 1 - l.length) none).set n (some v)

/-- Property write `current[key] = v` (arrays: canonical index strings write
elements, anything else writes an expando property; writes to a string value
are dropped — on a primitive they have no observable effect). -/
def dSet : DVal → String → DVal → DVal
  | .dobj fields, k, v => .dobj (assocSet fields k v)
  | .darr elems props, k, v =>
      match canonIndex k with
      | some n => .darr (elemSet elems n v) props
      | none => .darr elems (assocSet props k v)
  | .dblob id props, k, v => .dblob id (assocSet props k v)
  | .dstr s, _, _ => .dstr s

/-- The `typeof current[key] === 'object'` test: objects, arrays and blobs are
objects, strings are not. -/
def isObjType : DVal → Bool
  | .dstr _ => false
  | _ => true

/-- `Array.isArray`. -/
def DVal.isArr : DVal → Bool
  | .darr _ _ => true
  | _ => false

/-- The value is a file blob.  File objects carry getter-only built-in
properties (`name`, `size`, `type`, `lastModified`) whose assignment throws
`TypeError` in strict mode; the opaque blob embedding does not carry them, so
statements about the walk's behaviour are scoped away from blob values. -/
def DVal.isBlob : DVal → Bool
  | .dblob _ _ => true
  | _ => false

/-- The fresh container of `toObject` line 21: an array when the segment is
syntactically an unsigned integer (`/^\d+$/`), otherwise a plain object. -/
def freshFor (k : String) : DVal :=
  if isAllDigits k then .darr [] [] else .dobj []

/-- The final-segment placement of `assignNestedValue` (source lines 26-40).
The `lastKey = ""` branch mirrors lines 26-28; it is unreachable from
`assignNestedValue` because line 16 (`if (!lastKey) return`) already returns
on the empty string. -/
def placeFinal (current : DVal) (lastKey : String) (value : DVal) : DVal :=
  if lastKey = "" then
    match current with
    | .darr elems props => .darr (elems ++ [some value]) props
    | c => c
  else
    match current with
    | .darr elems props =>
        match jsParseInt lastKey with
        | none => .darr elems (assocSet props "NaN" value)
        | some n =>
            if 0 ≤ n ∧ n < 4294967295 then .darr (elemSet elems n.toNat value) props
            else .darr elems (assocSet props (toString n) value)
    | c =>
        match dGet c lastKey with
        | some existing =>
            match existing with
            | .darr e p => dSet c lastKey (.darr (e ++ [some value]) p)
            | ex => dSet c lastKey (.darr [some ex, some value] [])
        | none => dSet c lastKey value

/-- The intermediate-segment walk of `assignNestedValue` (source lines 19-24):
descend into the value at each segment, creating a fresh container (kind
chosen by `freshFor`) when the slot is absent or holds a non-object; then the
final placement.  The source mutates through an alias; the embedding rebuilds
the spine functionally, which coincides because the decoded structure is
tree-shaped. -/
def walkAssign : DVal → List String → String → DVal → DVal
  | current, [], lastKey, value => placeFinal current lastKey value
  | current, k :: rest, lastKey, value =>
      let child :=
        match dGet current k with
        | some c => if isObjType c then c else freshFor k
        | none => freshFor k
      dSet current k (walkAssign child rest lastKey value)

/-- `assignNestedValue` (source lines 14-41): pop the last segment; an absent
or empty last segment returns the target unchanged (line 16); otherwise walk
the remaining segments and place the value. -/
def assignNestedValue (target : DVal) (keys : List String) (value : DVal) : DVal :=
  match keys.getLast? with
  | none => target
  | some lastKey =>
      if lastKey = "" then target
      else walkAssign target keys.dropLast lastKey value

/-- The split `key.split(/[\[\]]+/)` over the character list: maximal runs of
bracket characters delimit the chunks, with empty chunks at the string's
boundary or around a leading/trailing run, exactly as the JavaScript regex
split produces them. -/
def splitAux : List Char → List Char → Bool → List (List Char)
  | [], cur, _ => [cur]
  | c :: cs, cur, inRun =>
      if c = '[' || c = ']' then
        if inRun then splitAux cs cur true
        else cur :: splitAux cs [] true
      else splitAux cs (cur ++ [c]) false

/-- `key.split(/[\[\]]+/)`. -/
def splitBrackets (s : String) : List String :=
  (splitAux s.data [] false).map List.asString

/-- The path segments of a key (source line 44): split at bracket runs, then
drop every empty segment. -/
def keysOf (k : String) : List String :=
  (splitBrackets k).filter (· ≠ "")

/-- A flat-map value placed into the tree: strings stay strings, blobs stay
blobs (pass-through, never stringified). -/
def fdToDVal : FdVal → DVal
  | .fstr s => .dstr s
  | .fblob i => .dblob i []

/-- `FormDataUtil.toObject`: fold every (key, value) entry, in order, into an
initially empty root object. -/
def toObject (entries : List Entry) : DVal :=
  entries.foldl (fun obj e => assignNestedValue obj (keysOf e.1) (fdToDVal e.2)) (.dobj [])

/-- The decoder's throwing operation: when the walk stands on an array and
the next intermediate segment is `"length"`, the array's exotic `length`
property holds a number — defined and not of type `'object'` — so line 20's
condition fires and line 21 assigns a plain object to `length`, which
JavaScript rejects with `RangeError: Invalid array length`. -/
inductive DecErr where
  | lengthRange
deriving DecidableEq, Repr

/-- The intermediate-segment walk with the throwing `length` write modelled:
on an array the slot at `"length"` always holds a defined number, so line 21
always executes `current["length"] = {}` there and the `RangeError`
propagates; every other step is exactly `walkAssign`. -/
def walkAssignE : DVal → List String → String → DVal → Except DecErr DVal
  | current, [], lastKey, value => .ok (placeFinal current lastKey value)
  | current, k :: rest, lastKey, value =>
      if current.isArr && k = "length" then .error .lengthRange
      else
        let child :=
          match dGet current k with
          | some c => if isObjType c then c else freshFor k
          | none => freshFor k
        (walkAssignE child rest lastKey value).map (dSet current k)

/-- A JavaScript value given to `FormDataUtil.fromObject`, as an inductive
tree (hence acyclic).  Numbers and valid dates are denoted by their textual
projections (`String(n)`, `toISOString()`), which is all the encoder ever
reads of them; an invalid date, whose `toISOString()` throws, is not a
`vdate` — it is represented in the heap model (`HNode.ndateInvalid`); blobs
are opaque ids. -/
inductive JsVal where
  | vnull
  | vundef
  | vstr (s : String)
  | vnum (s : String)
  | vbool (b : Bool)
  | vfun
  | vdate (iso : String)
  | vblob (id : Nat)
  | varr (elems : List JsVal)
  | vmap (pairs : List (String × JsVal))
  | vset (elems : List JsVal)
  | vobj (fields : List (String × JsVal))
deriving Repr

mutual

/-- Structural equality of `JsVal` trees (used to model the `WeakSet`
membership test: distinct tree positions are distinct JavaScript objects, and
a strict subterm is never structurally equal to the whole, so this test is a
sound stand-in for reference identity on tree-shaped inputs). -/
def jsEq : JsVal → JsVal → Bool
  | .vnull, .vnull => true
  | .vundef, .vundef => true
  | .vstr a, .vstr b => a = b
  | .vnum a, .vnum b => a = b
  | .vbool a, .vbool b => a = b
  | .vfun, .vfun => true
  | .vdate a, .vdate b => a = b
  | .vblob a, .vblob b => a = b
  | .varr a, .varr b => jsEqL a b
  | .vmap a, .vmap b => jsEqF a b
  | .vset a, .vset b => jsEqL a b
  | .vobj a, .vobj b => jsEqF a b
  | _, _ => false

/-- Elementwise `jsEq` on lists. -/
def jsEqL : List JsVal → List JsVal → Bool
  | [], [] => true
  | x :: xs, y :: ys => jsEq x y && jsEqL xs ys
  | _, _ => false

/-- Elementwise `jsEq` on keyed field lists. -/
def jsEqF : List (String × JsVal) → List (String × JsVal) → Bool
  | [], [] => true
  | (k, x) :: xs, (k', y) :: ys => k = k' && jsEq x y && jsEqF xs ys
  | _, _ => false

end

instance : BEq JsVal := ⟨jsEq⟩

/-- Membership in the `seen` set (`seen.has(obj)`). -/
def seenHas (seen : List JsVal) (v : JsVal) : Bool :=
  seen.any fun s => jsEq v s

/-- The key used by `form.append(namespace!, ...)`: an absent namespace is
coerced by `FormData.append` to the string `"undefined"`. -/
def nsKeyStr : Option String → String
  | none => "undefined"
  | some s => s

/-- The child key `namespace ? namespace + "[" + seg + "]" : seg` — note the
truthiness test, under which an empty-string namespace behaves like an absent
one. -/
def childKey (ns : Option String) (seg : String) : Option String :=
  match ns with
  | some s => if s = "" then some seg else some (s ++ "[" ++ seg ++ "]")
  | none => some seg

/-- The `value === undefined` test of the plain-object loop. -/
def isUndef : JsVal → Bool
  | .vundef => true
  | _ => false

mutual

/-- `FormDataUtil.fromObject` on tree-shaped values, dispatching exactly as
the source does: null/undefined first, then the cycle check for object-typed
values, then Date, Blob, Array, Map, Set, plain object, primitive, and a
silent drop for anything else; object-typed values are removed from `seen`
after their descendants.  The accumulated entry list and the `seen` set are
threaded through (the source mutates a shared `FormData` and `WeakSet`). -/
def goT : JsVal → Option String → List JsVal → List Entry →
    Except Unit (List Entry × List JsVal)
  | .vnull, _, seen, acc => .ok (acc, seen)
  | .vundef, _, seen, acc => .ok (acc, seen)
  | .vstr s, ns, seen, acc => .ok (acc ++ [(nsKeyStr ns, .fstr s)], seen)
  | .vnum s, ns, seen, acc => .ok (acc ++ [(nsKeyStr ns, .fstr s)], seen)
  | .vbool b, ns, seen, acc =>
      .ok (acc ++ [(nsKeyStr ns, .fstr (if b then "true" else "false"))], seen)
  | .vfun, _, seen, acc => .ok (acc, seen)
  | .vdate iso, ns, seen, acc =>
      if seenHas seen (.vdate iso) then .error ()
      else .ok (acc ++ [(nsKeyStr ns, .fstr iso)], ((JsVal.vdate iso) :: seen).erase (.vdate iso))
  | .vblob id, ns, seen, acc =>
      if seenHas seen (.vblob id) then .error ()
      else .ok (acc ++ [(nsKeyStr ns, .fblob id)], ((JsVal.vblob id) :: seen).erase (.vblob id))
  | .varr elems, ns, seen, acc =>
      if seenHas seen (.varr elems) then .error ()
      else do
        let r ← goTIdx elems 0 ns ((JsVal.varr elems) :: seen) acc
        .ok (r.1, r.2.erase (.varr elems))
  | .vmap pairs, ns, seen, acc =>
      if seenHas seen (.vmap pairs) then .error ()
      else do
        let r ← goTKeyed pairs false ns ((JsVal.vmap pairs) :: seen) acc
        .ok (r.1, r.2.erase (.vmap pairs))
  | .vset elems, ns, seen, acc =>
      if seenHas seen (.vset elems) then .error ()
      else do
        let r ← goTIdx elems 0 ns ((JsVal.vset elems) :: seen) acc
        .ok (r.1, r.2.erase (.vset elems))
  | .vobj fields, ns, seen, acc =>
      if seenHas seen (.vobj fields) then .error ()
      else do
        let r ← goTKeyed fields true ns ((JsVal.vobj fields) :: seen) acc
        .ok (r.1, r.2.erase (.vobj fields))

/-- The `forEach((item, index) => ...)` loops of the Array and Set branches. -/
def goTIdx : List JsVal → Nat → Option String → List JsVal → List Entry →
    Except Unit (List Entry × List JsVal)
  | [], _, _, seen, acc => .ok (acc, seen)
  | e :: rest, i, ns, seen, acc => do
      let r ← goT e (childKey ns (toString i)) seen acc
      goTIdx rest (i + 1) ns r.2 r.1

/-- The keyed loops: the Map branch (`skipUndef = false`) and the
plain-object `for ... in` loop, which skips `undefined`-valued properties
(`skipUndef = true`). -/
def goTKeyed : List (String × JsVal) → Bool → Option String → List JsVal → List Entry →
    Except Unit (List Entry × List JsVal)
  | [], _, _, seen, acc => .ok (acc, seen)
  | (k, v) :: rest, skipUndef, ns, seen, acc =>
      if skipUndef && isUndef v then goTKeyed rest skipUndef ns seen acc
      else do
        let r ← goT v (childKey ns k) seen acc
        goTKeyed rest skipUndef ns r.2 r.1

end

/-- `FormDataUtil.fromObject` at the public entry point: fresh `FormData`,
absent namespace, fresh `seen` set; the result is the entry list, or the
cyclic-reference error. -/
def fromObject (v : JsVal) : Except Unit (List Entry) :=
  (goT v none [] []).map (·.1)

section EncodeSanity

example : fromObject .vnull = .ok [] := by rfl
example : fromObject .vundef = .ok [] := by rfl
example : fromObject (.vstr "s") = .ok [("undefined", .fstr "s")] := by rfl
example : fromObject (.vobj [("a", .vnum "1"), ("b", .vundef)]) = .ok [("a", .fstr "1")] := by rfl
example : fromObject (.vobj [("a", .varr [.vstr "x"])]) = .ok [("a[0]", .fstr "x")] := by rfl
example : fromObject (.vobj [("d", .vdate "1995-12-17T00:00:00.000Z")]) =
    .ok [("d", .fstr "1995-12-17T00:00:00.000Z")] := by rfl
example : fromObject (.varr [.vnum "5", .vnum "6"]) =
    .ok [("0", .fstr "5"), ("1", .fstr "6")] := by rfl

end EncodeSanity

mutual

/-- Structural equality is reflexive. -/
theorem jsEq_refl : ∀ (a : JsVal), jsEq a a = true
  | .vnull => by simp [jsEq]
  | .vundef => by simp [jsEq]
  | .vstr s => by simp [jsEq]
  | .vnum s => by simp [jsEq]
  | .vbool b => by simp [jsEq]
  | .vfun => by simp [jsEq]
  | .vdate s => by simp [jsEq]
  | .vblob i => by simp [jsEq]
  | .varr xs => by simp [jsEq, jsEqL_refl xs]
  | .vmap xs => by simp [jsEq, jsEqF_refl xs]
  | .vset xs => by simp [jsEq, jsEqL_refl xs]
  | .vobj xs => by simp [jsEq, jsEqF_refl xs]

/-- Reflexivity for element lists. -/
theorem jsEqL_refl : ∀ (xs : List JsVal), jsEqL xs xs = true
  | [] => by simp [jsEqL]
  | x :: xs => by simp [jsEqL, jsEq_refl x, jsEqL_refl xs]

/-- Reflexivity for field lists. -/
theorem jsEqF_refl : ∀ (xs : List (String × JsVal)), jsEqF xs xs = true
  | [] => by simp [jsEqF]
  | (k, x) :: xs => by simp [jsEqF, jsEq_refl x, jsEqF_refl xs]

end

mutual

/-- Structurally equal values have equal size; contrapositively, a value is
never structurally equal to a strictly larger one, so the modelled `seen`
test cannot fire on a strict ancestor's strict descendant. -/
theorem jsEq_sizeOf : ∀ (a b : JsVal), jsEq a b = true → sizeOf a = sizeOf b
  | .vnull, b, h => by cases b <;> simp_all [jsEq]
  | .vundef, b, h => by cases b <;> simp_all [jsEq]
  | .vstr s, b, h => by cases b <;> simp_all [jsEq]
  | .vnum s, b, h => by cases b <;> simp_all [jsEq]
  | .vbool v, b, h => by cases b <;> simp_all [jsEq]
  | .vfun, b, h => by cases b <;> simp_all [jsEq]
  | .vdate s, b, h => by cases b <;> simp_all [jsEq]
  | .vblob i, b, h => by cases b <;> simp_all [jsEq]
  | .varr xs, b, h => by
      cases b <;> simp_all [jsEq]
      case varr ys => simp [jsEqL_sizeOf xs ys h]
  | .vmap xs, b, h => by
      cases b <;> simp_all [jsEq]
      case vmap ys => simp [jsEqF_sizeOf xs ys h]
  | .vset xs, b, h => by
      cases b <;> simp_all [jsEq]
      case vset ys => simp [jsEqL_sizeOf xs ys h]
  | .vobj xs, b, h => by
      cases b <;> simp_all [jsEq]
      case vobj ys => simp [jsEqF_sizeOf xs ys h]

/-- Size equality for element lists. -/
theorem jsEqL_sizeOf : ∀ (xs ys : List JsVal), jsEqL xs ys = true → sizeOf xs = sizeOf ys
  | [], [], _ => rfl
  | [], _ :: _, h => by simp [jsEqL] at h
  | _ :: _, [], h => by simp [jsEqL] at h
  | x :: xs, y :: ys, h => by
      simp only [jsEqL, Bool.and_eq_true] at h
      simp [jsEq_sizeOf x y h.1, jsEqL_sizeOf xs ys h.2]

/-- Size equality for field lists. -/
theorem jsEqF_sizeOf : ∀ (xs ys : List (String × JsVal)),
    jsEqF xs ys = true → sizeOf xs = sizeOf ys
  | [], [], _ => rfl
  | [], _ :: _, h => by simp [jsEqF] at h
  | _ :: _, [], h => by simp [jsEqF] at h
  | (k, x) :: xs, (k', y) :: ys, h => by
      simp only [jsEqF, Bool.and_eq_true, decide_eq_true_eq] at h
      obtain ⟨⟨hk, hx⟩, hxs⟩ := h
      subst hk
      simp [jsEq_sizeOf x y hx, jsEqF_sizeOf xs ys hxs]

end

/-- If every member of `seen` is strictly larger than `v`, the membership test
comes back negative (the model's counterpart of: a `WeakSet` holding only
strict ancestors cannot contain the current node). -/
theorem seenHas_false (seen : List JsVal) (v : JsVal)
    (h : ∀ s ∈ seen, sizeOf v < sizeOf s) : seenHas seen v = false := by
  simp only [seenHas, List.any_eq_false]
  intro s hs
  intro hEq
  exact absurd (jsEq_sizeOf v s hEq) (Nat.ne_of_lt (h s hs))

/-- Removing a newly added node restores the `seen` set. -/
theorem erase_cons_self (v : JsVal) (l : List JsVal) : (v :: l).erase v = l := by
  have hv : (v == v) = true := jsEq_refl v
  simp [List.erase_cons, hv]

mutual

/-- The pure entry list emitted by `fromObject` for a tree value at a
namespace: same dispatch as `goT`, with the `seen` and accumulator threading
stripped (justified by `goT_pure`). -/
def pureEntries : JsVal → Option String → List Entry
  | .vnull, _ => []
  | .vundef, _ => []
  | .vstr s, ns => [(nsKeyStr ns, .fstr s)]
  | .vnum s, ns => [(nsKeyStr ns, .fstr s)]
  | .vbool b, ns => [(nsKeyStr ns, .fstr (if b then "true" else "false"))]
  | .vfun, _ => []
  | .vdate iso, ns => [(nsKeyStr ns, .fstr iso)]
  | .vblob id, ns => [(nsKeyStr ns, .fblob id)]
  | .varr elems, ns => pureIdx elems 0 ns
  | .vmap pairs, ns => pureKeyed pairs false ns
  | .vset elems, ns => pureIdx elems 0 ns
  | .vobj fields, ns => pureKeyed fields true ns

/-- Pure entries of an indexed (array/set) loop. -/
def pureIdx : List JsVal → Nat → Option String → List Entry
  | [], _, _ => []
  | e :: rest, i, ns => pureEntries e (childKey ns (toString i)) ++ pureIdx rest (i + 1) ns

/-- Pure entries of a keyed (map/object) loop. -/
def pureKeyed : List (String × JsVal) → Bool → Option String → List Entry
  | [], _, _ => []
  | (k, v) :: rest, skipUndef, ns =>
      if skipUndef && isUndef v then pureKeyed rest skipUndef ns
      else pureEntries v (childKey ns k) ++ pureKeyed rest skipUndef ns

end

mutual

/-- On tree-shaped values the encoder never raises, appends exactly the pure
entry list, and restores the `seen` set — provided every member of `seen` is
strictly larger than the value (true of the ancestor discipline). -/
theorem goT_pure : ∀ (v : JsVal) (ns : Option String) (seen : List JsVal) (acc : List Entry),
    (∀ s ∈ seen, sizeOf v < sizeOf s) →
    goT v ns seen acc = .ok (acc ++ pureEntries v ns, seen)
  | .vnull, ns, seen, acc, _ => by simp [goT, pureEntries]
  | .vundef, ns, seen, acc, _ => by simp [goT, pureEntries]
  | .vstr s, ns, seen, acc, _ => by simp [goT, pureEntries]
  | .vnum s, ns, seen, acc, _ => by simp [goT, pureEntries]
  | .vbool b, ns, seen, acc, _ => by simp [goT, pureEntries]
  | .vfun, ns, seen, acc, _ => by simp [goT, pureEntries]
  | .vdate iso, ns, seen, acc, h => by
      simp [goT, pureEntries, seenHas_false seen _ h, erase_cons_self]
  | .vblob id, ns, seen, acc, h => by
      simp [goT, pureEntries, seenHas_false seen _ h, erase_cons_self]
  | .varr elems, ns, seen, acc, h => by
      have hrec : goTIdx elems 0 ns ((JsVal.varr elems) :: seen) acc =
          .ok (acc ++ pureIdx elems 0 ns, (JsVal.varr elems) :: seen) := by
        apply goTIdx_pure
        intro e he s hs
        have he' : sizeOf e < sizeOf (JsVal.varr elems) := by
          have := List.sizeOf_lt_of_mem he
          simp only [JsVal.varr.sizeOf_spec]
          omega
        rcases List.mem_cons.mp hs with rfl | hs'
        · exact he'
        · exact Nat.lt_trans he' (h s hs')
      simp [goT, seenHas_false seen _ h, hrec, erase_cons_self, pureEntries, Bind.bind, Except.bind]
  | .vmap pairs, ns, seen, acc, h => by
      have hrec : goTKeyed pairs false ns ((JsVal.vmap pairs) :: seen) acc =
          .ok (acc ++ pureKeyed pairs false ns, (JsVal.vmap pairs) :: seen) := by
        apply goTKeyed_pure
        intro k e he s hs
        have he' : sizeOf e < sizeOf (JsVal.vmap pairs) := by
          have h1 := List.sizeOf_lt_of_mem he
          simp only [JsVal.vmap.sizeOf_spec]
          simp only [Prod.mk.sizeOf_spec] at h1
          omega
        rcases List.mem_cons.mp hs with rfl | hs'
        · exact he'
        · exact Nat.lt_trans he' (h s hs')
      simp [goT, seenHas_false seen _ h, hrec, erase_cons_self, pureEntries, Bind.bind, Except.bind]
  | .vset elems, ns, seen, acc, h => by
      have hrec : goTIdx elems 0 ns ((JsVal.vset elems) :: seen) acc =
          .ok (acc ++ pureIdx elems 0 ns, (JsVal.vset elems) :: seen) := by
        apply goTIdx_pure
        intro e he s hs
        have he' : sizeOf e < sizeOf (JsVal.vset elems) := by
          have := List.sizeOf_lt_of_mem he
          simp only [JsVal.vset.sizeOf_spec]
          omega
        rcases List.mem_cons.mp hs with rfl | hs'
        · exact he'
        · exact Nat.lt_trans he' (h s hs')
      simp [goT, seenHas_false seen _ h, hrec, erase_cons_self, pureEntries, Bind.bind, Except.bind]
  | .vobj fields, ns, seen, acc, h => by
      have hrec : goTKeyed fields true ns ((JsVal.vobj fields) :: seen) acc =
          .ok (acc ++ pureKeyed fields true ns, (JsVal.vobj fields) :: seen) := by
        apply goTKeyed_pure
        intro k e he s hs
        have he' : sizeOf e < sizeOf (JsVal.vobj fields) := by
          have h1 := List.sizeOf_lt_of_mem he
          simp only [JsVal.vobj.sizeOf_spec]
          simp only [Prod.mk.sizeOf_spec] at h1
          omega
        rcases List.mem_cons.mp hs with rfl | hs'
        · exact he'
        · exact Nat.lt_trans he' (h s hs')
      simp [goT, seenHas_false seen _ h, hrec, erase_cons_self, pureEntries, Bind.bind, Except.bind]

/-- `goT_pure` for the indexed loops. -/
theorem goTIdx_pure : ∀ (elems : List JsVal) (i : Nat) (ns : Option String)
    (seen : List JsVal) (acc : List Entry),
    (∀ e ∈ elems, ∀ s ∈ seen, sizeOf e < sizeOf s) →
    goTIdx elems i ns seen acc = .ok (acc ++ pureIdx elems i ns, seen)
  | [], _, _, seen, acc, _ => by simp [goTIdx, pureIdx]
  | e :: rest, i, ns, seen, acc, h => by
      have h1 : goT e (childKey ns (toString i)) seen acc =
          .ok (acc ++ pureEntries e (childKey ns (toString i)), seen) :=
        goT_pure e _ seen acc (h e (List.mem_cons_self e rest))
      have h2 := goTIdx_pure rest (i + 1) ns seen
        (acc ++ pureEntries e (childKey ns (toString i)))
        (fun e' he' => h e' (List.mem_cons_of_mem _ he'))
      simp [goTIdx, pureIdx, h1, h2, Bind.bind, Except.bind]

/-- `goT_pure` for the keyed loops. -/
theorem goTKeyed_pure : ∀ (fields : List (String × JsVal)) (skipUndef : Bool)
    (ns : Option String) (seen : List JsVal) (acc : List Entry),
    (∀ k e, (k, e) ∈ fields → ∀ s ∈ seen, sizeOf e < sizeOf s) →
    goTKeyed fields skipUndef ns seen acc = .ok (acc ++ pureKeyed fields skipUndef ns, seen)
  | [], _, _, seen, acc, _ => by simp [goTKeyed, pureKeyed]
  | (k, v) :: rest, skipUndef, ns, seen, acc, h => by
      have h2 := fun acc' => goTKeyed_pure rest skipUndef ns seen acc'
        (fun k' e' he' => h k' e' (List.mem_cons_of_mem _ he'))
      cases hb : skipUndef && isUndef v with
      | true => simp [goTKeyed, pureKeyed, hb, h2 acc]
      | false =>
          have h1 : goT v (childKey ns k) seen acc =
              .ok (acc ++ pureEntries v (childKey ns k), seen) :=
            goT_pure v _ seen acc (h k v (List.mem_cons_self (k, v) rest))
          simp [goTKeyed, pureKeyed, hb, h1, h2, Bind.bind, Except.bind]

end

/-- On tree inputs `fromObject` always succeeds with the pure entry list (the
cycle check never fires: an inductive tree has no cycles). -/
theorem fromObject_eq_pure (v : JsVal) : fromObject v = .ok (pureEntries v none) := by
  have h := goT_pure v none [] [] (by intro s hs; cases hs)
  simp [fromObject, h, Except.map]

/-! ### Key-splitting lemmas -/

/-- Appending a trailing `[]` to a key adds only an empty chunk, which the
filter then discards: at the character level, the non-empty chunks are
unchanged. -/
theorem splitAux_append_brackets :
    ∀ (cs : List Char) (cur : List Char) (b : Bool),
      (splitAux (cs ++ ['[', ']']) cur b).filter (· ≠ []) =
        (splitAux cs cur b).filter (· ≠ [])
  | [], cur, true => by simp [splitAux, List.filter_cons]
  | [], cur, false => by simp [splitAux, List.filter_cons]
  | c :: cs, cur, b => by
      simp only [List.cons_append, splitAux]
      by_cases hc : (c = '[' || c = ']') = true
      · rw [if_pos hc, if_pos hc]
        cases b with
        | true =>
            rw [if_pos rfl, if_pos rfl]
            exact splitAux_append_brackets cs cur true
        | false =>
            rw [if_neg (by simp), if_neg (by simp)]
            simp only [List.append_eq]
            rw [List.filter_cons, List.filter_cons, splitAux_append_brackets cs [] true]
      · rw [if_neg hc, if_neg hc]
        exact splitAux_append_brackets cs (cur ++ [c]) false

/-- An empty string chunk is exactly an empty character chunk. -/
theorem asString_eq_empty_iff (cs : List Char) : (List.asString cs = "") ↔ cs = [] := by
  constructor
  · intro h
    have := congrArg String.data h
    simpa [List.asString] using this
  · intro h
    subst h
    rfl

/-- Filtering empty segments commutes with rendering chunks as strings. -/
theorem filter_map_asString (ls : List (List Char)) :
    ((ls.map List.asString).filter (· ≠ "")) = (ls.filter (· ≠ [])).map List.asString := by
  rw [List.filter_map]
  congr 1
  apply List.filter_congr
  intro cs _
  simp [Function.comp, asString_eq_empty_iff]

/-- A trailing `[]` contributes no path segment. -/
theorem keysOf_append_brackets (s : String) : keysOf (s ++ "[]") = keysOf s := by
  unfold keysOf splitBrackets
  rw [String.data_append]
  show ((splitAux (s.data ++ ['[', ']']) [] false).map List.asString).filter (· ≠ "") = _
  rw [filter_map_asString, filter_map_asString, splitAux_append_brackets]

/-! ### Claim theorems for the decode direction -/

/-- C3 counterexample: the claim says decoding the single pair
`("items[]", "x")` into an empty root yields `items` bound to a sequence
containing `"x"`.  In the code, line 44's filter discards the empty segment
produced by the trailing `[]` (and line 16 would discard an empty last
segment anyway), so `items` is bound to the bare string, not a sequence. -/
theorem append_sentinel_counterexample :
    toObject [("items[]", .fstr "x")] = .dobj [("items", .dstr "x")] ∧
      (DVal.dstr "x").isArr = false :=
  ⟨rfl, rfl⟩

/-- C3 amended: every empty segment produced by the bracket split is
discarded, including a final empty segment from a trailing `[]`; such a
trailing `[]` therefore has no effect on how a pair is processed, and
decoding `("items[]", "x")` into an empty root binds `items` directly to
`"x"`. -/
theorem empty_segments_all_discarded (s : String) (root : DVal) (v : FdVal) :
    keysOf (s ++ "[]") = keysOf s ∧
      assignNestedValue root (keysOf (s ++ "[]")) (fdToDVal v) =
        assignNestedValue root (keysOf s) (fdToDVal v) ∧
      toObject [("items[]", .fstr "x")] = .dobj [("items", .dstr "x")] :=
  ⟨keysOf_append_brackets s, by rw [keysOf_append_brackets], rfl⟩

/-- C4: placement at an already-set key of a mapping coalesces — an existing
sequence gets the value appended, any other existing value is replaced by the
two-element sequence of the old then the new value; and decoding
`[("tag","a"), ("tag","b")]` yields `tag` bound to the sequence `["a","b"]`. -/
theorem coalesce_on_set_key :
    (∀ (fields : List (String × DVal)) (lastKey : String) (value ex : DVal),
        lastKey ≠ "" → assocGet fields lastKey = some ex →
        placeFinal (.dobj fields) lastKey value =
          .dobj (assocSet fields lastKey
            (match ex with
              | .darr e p => .darr (e ++ [some value]) p
              | ex => .darr [some ex, some value] []))) ∧
      toObject [("tag", .fstr "a"), ("tag", .fstr "b")] =
        .dobj [("tag", .darr [some (.dstr "a"), some (.dstr "b")] [])] := by
  refine ⟨?_, rfl⟩
  intro fields lastKey value ex hne hex
  cases ex <;> simp [placeFinal, hne, dGet, hex, dSet]

/-- Witness for C4's coalescing rule at a concrete input: `tag` already bound
to the scalar `"a"`, so placing `"b"` wraps them into a two-element
sequence. -/
theorem coalesce_on_set_key_witness :
    placeFinal (.dobj [("tag", .dstr "a")]) "tag" (.dstr "b") =
      .dobj [("tag", .darr [some (.dstr "a"), some (.dstr "b")] [])] :=
  coalesce_on_set_key.1 [("tag", .dstr "a")] "tag" (.dstr "b") (.dstr "a")
    (by decide) rfl

/-- C5: decoding `[("items[]","x"), ("items[]","y")]` yields `items` bound to
the sequence `["x","y"]` (the first pair binds the bare string, the second
coalesces it into a two-element sequence). -/
theorem decode_items_append_pairs :
    toObject [("items[]", .fstr "x"), ("items[]", .fstr "y")] =
      .dobj [("items", .darr [some (.dstr "x"), some (.dstr "y")] [])] :=
  rfl

/-- C6 counterexample: after `("a[b]","1")` the prefix `a` is materialized as
a mapping; processing the later pair `("a","2")` coalesces and replaces it
with a sequence — the container kind at a materialized prefix is not stable
across later pairs. -/
theorem mapping_replaced_by_sequence :
    dGet (toObject [("a[b]", .fstr "1")]) "a" = some (.dobj [("b", .dstr "1")]) ∧
      dGet (toObject [("a[b]", .fstr "1"), ("a", .fstr "2")]) "a" =
        some (.darr [some (.dobj [("b", .dstr "1")]), some (.dstr "2")] []) ∧
      (DVal.dobj [("b", .dstr "1")]).isArr = false ∧
      (DVal.darr [some (.dobj [("b", .dstr "1")]), some (.dstr "2")] []).isArr = true :=
  ⟨rfl, rfl, rfl, rfl⟩

/-- C6 amended: the intermediate-segment walk itself never overwrites an
existing container — a slot holding a sequence or mapping is descended into
unchanged (a fresh container is created only when the slot is absent or holds
a non-object); kind changes at a prefix can only come from final-segment
placement, where coalescing replaces a mapping with a sequence (see the
counterexample). -/
theorem walk_preserves_containers (current : DVal) (k : String) (rest : List String)
    (lastKey : String) (value c : DVal)
    (hc : dGet current k = some c) (hobj : isObjType c = true) :
    walkAssign current (k :: rest) lastKey value =
      dSet current k (walkAssign c rest lastKey value) := by
  simp [walkAssign, hc, hobj]

/-- Witness for the walk-preservation rule: an existing sequence at `a` is
reused by the walk, not overwritten. -/
theorem walk_preserves_containers_witness :
    walkAssign (.dobj [("a", .darr [] [])]) ["a"] "b" (.dstr "v") =
      dSet (.dobj [("a", .darr [] [])]) "a" (walkAssign (.darr [] []) [] "b" (.dstr "v")) :=
  walk_preserves_containers (.dobj [("a", .darr [] [])]) "a" [] "b" (.dstr "v")
    (.darr [] []) rfl rfl

/-- Dropping an `undefined`-valued field anywhere in a plain object's field
list leaves the pure entry list unchanged (the `for ... in` loop skips it). -/
theorem pureKeyed_undef (k : String) (post : List (String × JsVal)) :
    ∀ (pre : List (String × JsVal)) (ns : Option String),
      pureKeyed (pre ++ (k, .vundef) :: post) true ns = pureKeyed (pre ++ post) true ns
  | [], ns => by simp [pureKeyed, isUndef]
  | (k', v') :: tl, ns => by
      simp only [List.cons_append, pureKeyed, List.append_eq, pureKeyed_undef k post tl ns]

/-- C8: absent values produce no entries — encoding `null` or `undefined`
yields no entries at all, an `undefined`-valued property of a plain object
contributes nothing (dropping it from the field list leaves the encoding
unchanged), and encoding an object with fields `a = 1` and `b = undefined`
yields only the pair for `a`. -/
theorem absent_values_skipped :
    (∀ (pre post : List (String × JsVal)) (k : String),
        fromObject (.vobj (pre ++ (k, .vundef) :: post)) = fromObject (.vobj (pre ++ post))) ∧
      fromObject .vnull = .ok [] ∧
      fromObject .vundef = .ok [] ∧
      fromObject (.vobj [("a", .vnum "1"), ("b", .vundef)]) = .ok [("a", .fstr "1")] := by
  refine ⟨?_, rfl, rfl, rfl⟩
  intro pre post k
  rw [fromObject_eq_pure, fromObject_eq_pure]
  simp only [pureEntries]
  rw [pureKeyed_undef]

/-- C9 counterexample: the claim says a slot that exists but is not a
container is replaced by a fresh container (a mapping here, since `"length"`
is not all digits) and descended into; but at a sequence the slot at the
segment `"length"` holds the array's numeric length, and the source throws
`RangeError` from `current["length"] = {}` (line 21) instead of creating
anything. -/
theorem length_segment_counterexample :
    isAllDigits "length" = false ∧
      walkAssignE (.darr [] []) ["length"] "x" (.dstr "v") = .error .lengthRange :=
  ⟨by decide, rfl⟩

/-- C9 amended: during the walk over intermediate segments, an absent or
text-valued slot is replaced by a fresh container whose kind the segment's
syntax decides — a sequence when the segment is a non-empty digit string, a
mapping otherwise — and the walk descends into that fresh container, provided
the current container is not a file blob, the segment is not `"length"` when
the container is a sequence (the source throws there, see the
counterexample), and the segment is not `"__proto__"` (which the source reads
through the prototype chain).  The blob and `__proto__` hypotheses scope the
statement to where the own-property embedding is faithful. -/
theorem fresh_container_kind (current : DVal) (k : String) (rest : List String)
    (lastKey : String) (value : DVal)
    (h : dGet current k = none ∨ ∃ s, dGet current k = some (.dstr s))
    (_hblob : current.isBlob = false)
    (hlen : current.isArr = true → k ≠ "length")
    (_hproto : k ≠ "__proto__") :
    walkAssignE current (k :: rest) lastKey value =
      (walkAssignE (if isAllDigits k then .darr [] [] else .dobj []) rest lastKey value).map
        (dSet current k) := by
  have hguard : (current.isArr && (k = "length" : Bool)) = false := by
    cases ha : current.isArr with
    | false => simp
    | true => simp [hlen ha]
  rcases h with h | ⟨s, h⟩
  · simp [walkAssignE, hguard, h, freshFor]
  · simp [walkAssignE, hguard, h, isObjType, freshFor]

/-- Witness for the fresh-container rule: an absent slot under the digit
segment `"0"` materializes as a sequence, under `"a"` as a mapping. -/
theorem fresh_container_kind_witness :
    walkAssignE (.dobj []) ["0"] "k" (.dstr "v") =
        (walkAssignE (.darr [] []) [] "k" (.dstr "v")).map (dSet (.dobj []) "0") ∧
      walkAssignE (.dobj []) ["a"] "k" (.dstr "v") =
        (walkAssignE (.dobj []) [] "k" (.dstr "v")).map (dSet (.dobj []) "a") := by
  constructor
  · have h := fresh_container_kind (.dobj []) "0" [] "k" (.dstr "v") (Or.inl rfl)
      rfl (by intro hc; exact absurd hc (by decide)) (by decide)
    rwa [if_pos (by decide)] at h
  · have h := fresh_container_kind (.dobj []) "a" [] "k" (.dstr "v") (Or.inl rfl)
      rfl (by intro hc; exact absurd hc (by decide)) (by decide)
    rwa [if_neg (by decide)] at h

/-- C1 counterexample: the tree with a one-element sequence under `a` encodes
to the single pair `("a[0]","x")`, but decoding that pair materializes `a` as
a mapping with key `"0"` (the walk chooses the container kind from the
segment `"a"`, not from the following index segment), so the decoded value
does not reproduce the sequence structure of the input. -/
theorem roundtrip_counterexample :
    fromObject (.vobj [("a", .varr [.vstr "x"])]) = .ok [("a[0]", .fstr "x")] ∧
      toObject [("a[0]", .fstr "x")] = .dobj [("a", .dobj [("0", .dstr "x")])] ∧
      (DVal.dobj [("0", .dstr "x")]).isArr = false :=
  ⟨rfl, rfl, rfl⟩

/-! ### The amended round trip

The round trip of C1 fails on sequences (see `roundtrip_counterexample`), on
all-digit or bracket-containing or empty object keys (the decoder's segment
syntax cannot distinguish them), on keys found on `Object.prototype` (the
decoder's `!== undefined` test at line 32 sees the inherited property, so
`{toString: "x"}` decodes back with the inherited function coalesced in), and
on empty nested composites (which emit no entries).  The amended claim
restricts to trees of plain keyed composites whose keys are non-empty,
bracket-free, not all digits, not prototype properties and pairwise distinct,
with non-empty nested composites and string/number/boolean leaves. -/

/-- A key inherited from `Object.prototype` (or the `__proto__` accessor).
The decoder reads `current[key]` (line 20) and `current[lastKey]` (line 32)
through the prototype chain, so for these keys it sees the inherited function
— or, for `__proto__`, the prototype object — even when the target has no own
property, and the round trip breaks. -/
def protoKey (k : String) : Bool :=
  k = "constructor" || k = "hasOwnProperty" || k = "isPrototypeOf" ||
    k = "propertyIsEnumerable" || k = "toLocaleString" || k = "toString" ||
    k = "valueOf" || k = "__proto__" || k = "__defineGetter__" ||
    k = "__defineSetter__" || k = "__lookupGetter__" || k = "__lookupSetter__"

/-- A key that survives the round trip: non-empty, without bracket
characters, not an all-digit string (which the decoder would treat as an
array index), and not a prototype property (which the decoder's inherited
reads would coalesce with). -/
def goodKey (k : String) : Bool :=
  !k.data.isEmpty && k.data.all (fun c => !(c = '[' || c = ']')) && !isAllDigits k &&
    !protoKey k

/-- Well-formedness of a field list's keys: all good and pairwise distinct. -/
def keysOk (fields : List (String × JsVal)) : Bool :=
  fields.all (fun f => goodKey f.1) && decide ((fields.map Prod.fst).Nodup)

mutual

/-- Values in the round-trip-safe class: string/number/boolean leaves and
non-empty plain objects with well-formed keys. -/
def safeVal : JsVal → Bool
  | .vstr _ => true
  | .vnum _ => true
  | .vbool _ => true
  | .vobj fields => !fields.isEmpty && keysOk fields && safeFields fields
  | _ => false

/-- All field values safe. -/
def safeFields : List (String × JsVal) → Bool
  | [] => true
  | (_, v) :: rest => safeVal v && safeFields rest

end

/-- The round-trip-safe class at the root: the root object itself may be
empty, its keys must be well-formed and its values safe. -/
def safeRoot (fields : List (String × JsVal)) : Bool :=
  keysOk fields && safeFields fields

mutual

/-- The expected decode of an encoded safe tree: the same shape with every
leaf replaced by its textual form (this is the specification-side reading of
"reproduces the structure with leaves as strings"). -/
def strMap : JsVal → DVal
  | .vstr s => .dstr s
  | .vnum s => .dstr s
  | .vbool b => .dstr (if b then "true" else "false")
  | .vobj fields => .dobj (strFields fields)
  | _ => .dstr ""

/-- `strMap` over a field list. -/
def strFields : List (String × JsVal) → List (String × DVal)
  | [] => []
  | (k, v) :: rest => (k, strMap v) :: strFields rest

end

/-- The bracketed tail of a rendered path: `[k1][k2]...[kn]`. -/
def brTail : List String → String
  | [] => ""
  | s :: rest => "[" ++ s ++ "]" ++ brTail rest

/-- The rendered bracket-notation key of a non-empty segment path:
`k0[k1]...[kn]` — exactly the keys the encoder builds. -/
def renderPath : List String → String
  | [] => ""
  | k :: ks => k ++ brTail ks

mutual

/-- The leaf paths of a safe tree with their stringified leaf values, in
emission order. -/
def leaves : JsVal → List (List String × String)
  | .vstr s => [([], s)]
  | .vnum s => [([], s)]
  | .vbool b => [([], if b then "true" else "false")]
  | .vobj fields => leavesF fields
  | _ => []

/-- Leaf paths of a field list, each prefixed with its field key. -/
def leavesF : List (String × JsVal) → List (List String × String)
  | [] => []
  | (k, v) :: rest => (leaves v).map (fun q => (k :: q.1, q.2)) ++ leavesF rest

end

/-- One decode step on an already-split segment path with a string value. -/
def insStep (root : DVal) (q : List String × String) : DVal :=
  assignNestedValue root q.1 (.dstr q.2)

/-- The existing child at a key, or a fresh empty object (what the decoder's
walk descends into along a clean path). -/
def lookupOr (fields : List (String × DVal)) (k : String) : DVal :=
  match assocGet fields k with
  | some c => c
  | none => .dobj []

/-- Graft a value at the end of a path, materializing plain objects along the
way: the specification-side description of what one decode insertion does on
a clean path. -/
def graft : DVal → List String → DVal → DVal
  | _, [], v => v
  | root, k :: rest, v =>
      match root with
      | .dobj fields => .dobj (assocSet fields k (graft (lookupOr fields k) rest v))
      | r => r

/-- A path is clean in a tree when the walk to its last segment meets only
plain objects or absent slots, and the final slot is unset — the precondition
under which one decode insertion is exactly a graft. -/
inductive CleanPath : DVal → List String → Prop where
  | last (fields : List (String × DVal)) (k : String) :
      assocGet fields k = none → CleanPath (.dobj fields) [k]
  | stepNone (fields : List (String × DVal)) (k k2 : String) (rest : List String) :
      assocGet fields k = none → CleanPath (.dobj []) (k2 :: rest) →
      CleanPath (.dobj fields) (k :: k2 :: rest)
  | stepObj (fields fields2 : List (String × DVal)) (k k2 : String) (rest : List String) :
      assocGet fields k = some (.dobj fields2) → CleanPath (.dobj fields2) (k2 :: rest) →
      CleanPath (.dobj fields) (k :: k2 :: rest)

/-! ### Rendering and re-splitting a good path -/

/-- Strings with equal character data are equal. -/
theorem strExt (a b : String) (h : a.data = b.data) : a = b :=
  congrArg String.mk h

/-- Rendering a string's character data gives the string back. -/
theorem asString_data (s : String) : List.asString s.data = s := rfl

/-- The components of a good key. -/
theorem goodKey_spec (k : String) (h : goodKey k = true) :
    k.data ≠ [] ∧ (∀ c ∈ k.data, (c = '[' || c = ']') = false) ∧ isAllDigits k = false ∧
      protoKey k = false := by
  simp only [goodKey, Bool.and_eq_true, Bool.not_eq_true', List.all_eq_true] at h
  obtain ⟨⟨⟨h1, h2⟩, h3⟩, h4⟩ := h
  refine ⟨?_, ?_, h3, h4⟩
  · intro hd
    rw [hd] at h1
    simp at h1
  · intro c hc
    have := h2 c hc
    simpa using this

/-- A good key is not the empty string. -/
theorem goodKey_ne_empty (k : String) (h : goodKey k = true) : k ≠ "" := by
  intro he
  exact (goodKey_spec k h).1 (by subst he; rfl)

/-- Folding a non-empty bracket-free chunk just extends the current segment. -/
theorem splitAux_chunk : ∀ (cs rest cur : List Char) (b : Bool), cs ≠ [] →
    (∀ c ∈ cs, (c = '[' || c = ']') = false) →
    splitAux (cs ++ rest) cur b = splitAux rest (cur ++ cs) false
  | [], _, _, _, hne, _ => absurd rfl hne
  | c :: cs, rest, cur, b, _, h => by
      have hc := h c (by simp)
      show splitAux (c :: (cs ++ rest)) cur b = _
      rw [splitAux.eq_2, if_neg (by simp [hc])]
      cases cs with
      | nil => rfl
      | cons c2 cs2 =>
          rw [splitAux_chunk (c2 :: cs2) rest (cur ++ [c]) false (by simp)
            (fun c' hc' => h c' (List.mem_cons_of_mem _ hc'))]
          congr 1
          simp

/-- Character data of the empty bracketed tail. -/
theorem brTail_nil_data : (brTail []).data = [] := rfl

/-- Character data of a non-empty bracketed tail. -/
theorem brTail_cons_data (k : String) (rest : List String) :
    (brTail (k :: rest)).data = '[' :: (k.data ++ (']' :: (brTail rest).data)) := by
  simp [brTail, String.data_append, show ("[" : String).data = ['['] from rfl,
    show ("]" : String).data = [']'] from rfl]

/-- Splitting the remainder of a unit sequence `k][k2]...[kn]` with the
scanner inside a bracket run recovers the segments followed by the final
empty chunk. -/
theorem splitAux_units : ∀ (k : String) (rest : List String),
    (k.data ≠ [] ∧ ∀ c ∈ k.data, (c = '[' || c = ']') = false) →
    (∀ k' ∈ rest, k'.data ≠ [] ∧ ∀ c ∈ k'.data, (c = '[' || c = ']') = false) →
    splitAux (k.data ++ (']' :: (brTail rest).data)) [] true =
      (k :: rest).map String.data ++ [[]]
  | k, [], hk, _ => by
      rw [splitAux_chunk k.data _ [] true hk.1 hk.2]
      simp only [List.nil_append, brTail_nil_data]
      simp [splitAux]
  | k, k' :: rest, hk, hrest => by
      rw [splitAux_chunk k.data _ [] true hk.1 hk.2]
      simp only [List.nil_append, brTail_cons_data]
      rw [show splitAux (']' :: '[' :: (k'.data ++ (']' :: (brTail rest).data))) k.data false =
          k.data :: splitAux (k'.data ++ (']' :: (brTail rest).data)) [] true from by
        simp [splitAux]]
      rw [splitAux_units k' rest (hrest k' (by simp))
        (fun x hx => hrest x (List.mem_cons_of_mem _ hx))]
      simp

/-- A rendered path of good keys splits back into exactly its segments. -/
theorem keysOf_renderPath : ∀ (p : List String), p ≠ [] → (∀ k ∈ p, goodKey k = true) →
    keysOf (renderPath p) = p
  | [], h, _ => absurd rfl h
  | [k], _, hg => by
      obtain ⟨hne, hbf, _⟩ := goodKey_spec k (hg k (by simp))
      have hr : splitAux ((renderPath [k]).data) [] false = [k.data] := by
        show splitAux ((k ++ brTail []).data) [] false = [k.data]
        rw [String.data_append, brTail_nil_data]
        rw [splitAux_chunk k.data [] [] false hne hbf]
        simp [splitAux]
      unfold keysOf splitBrackets
      rw [hr]
      simp only [List.map_cons, List.map_nil, asString_data]
      rw [List.filter_cons, if_pos (by simp [goodKey_ne_empty k (hg k (by simp))])]
      rfl
  | k :: k2 :: rest, _, hg => by
      obtain ⟨hne, hbf, _⟩ := goodKey_spec k (hg k (by simp))
      have hmem : ∀ k' ∈ k2 :: rest,
          k'.data ≠ [] ∧ ∀ c ∈ k'.data, (c = '[' || c = ']') = false := by
        intro k' hk'
        obtain ⟨a, b, _⟩ := goodKey_spec k' (hg k' (List.mem_cons_of_mem _ hk'))
        exact ⟨a, b⟩
      have hr : splitAux ((renderPath (k :: k2 :: rest)).data) [] false =
          k.data :: ((k2 :: rest).map String.data ++ [[]]) := by
        show splitAux ((k ++ brTail (k2 :: rest)).data) [] false = _
        rw [String.data_append, splitAux_chunk k.data _ [] false hne hbf]
        simp only [List.nil_append, brTail_cons_data]
        rw [show splitAux ('[' :: (k2.data ++ (']' :: (brTail rest).data))) k.data false =
            k.data :: splitAux (k2.data ++ (']' :: (brTail rest).data)) [] true from by
          simp [splitAux]]
        rw [splitAux_units k2 rest (hmem k2 (by simp))
          (fun x hx => hmem x (List.mem_cons_of_mem _ hx))]
      have hall : ∀ k' ∈ k2 :: rest, k' ≠ "" := fun k' hk' =>
        goodKey_ne_empty k' (hg k' (List.mem_cons_of_mem _ hk'))
      have hdata : ∀ (l : List String), (l.map String.data).map List.asString = l := by
        intro l
        induction l with
        | nil => rfl
        | cons x xs ih => simp only [List.map_cons, ih, asString_data]
      unfold keysOf splitBrackets
      rw [hr]
      simp only [List.map_cons, List.map_append, hdata, asString_data]
      rw [List.filter_cons, if_pos (by simp [goodKey_ne_empty k (hg k (by simp))])]
      rw [List.filter_append, List.filter_eq_self.mpr (by intro a ha; simpa using hall a ha)]
      simp [show List.asString [] = "" from rfl]

/-- Character data of a tail extended on the right. -/
theorem brTail_append_data : ∀ (ps : List String) (k : String),
    (brTail (ps ++ [k])).data = (brTail ps).data ++ ('[' :: (k.data ++ [']']))
  | [], k => by
      simp only [List.nil_append, brTail_cons_data, brTail_nil_data]
  | p :: ps, k => by
      simp only [List.cons_append, brTail_cons_data, brTail_append_data ps k]
      simp [List.append_assoc]

/-- Rendering a path extended by one segment appends one bracketed unit. -/
theorem renderPath_append (p : List String) (k : String) (hp : p ≠ []) :
    renderPath (p ++ [k]) = renderPath p ++ "[" ++ k ++ "]" := by
  obtain ⟨p0, ps, rfl⟩ := List.exists_cons_of_ne_nil hp
  apply strExt
  simp only [List.cons_append, renderPath, String.data_append, brTail_append_data,
    show ("[" : String).data = ['['] from rfl, show ("]" : String).data = [']'] from rfl]
  simp [List.append_assoc]

/-- A one-segment path renders as the bare segment. -/
theorem renderPath_single (k : String) : renderPath [k] = k := by
  simp [renderPath, brTail, String.append_empty]

/-- A rendered path whose head is a good key is non-empty. -/
theorem renderPath_ne_empty (p : List String) (hp : p ≠ [])
    (hg : ∀ k ∈ p, goodKey k = true) : renderPath p ≠ "" := by
  obtain ⟨p0, ps, rfl⟩ := List.exists_cons_of_ne_nil hp
  intro h
  have hd := congrArg String.data h
  simp only [renderPath, String.data_append, show ("" : String).data = [] from rfl,
    List.append_eq_nil] at hd
  exact (goodKey_spec p0 (hg p0 (by simp))).1 hd.1

/-- A rendered path of two or more segments is non-empty (it contains a
bracket). -/
theorem renderPath_append_ne_empty (p : List String) (k : String) (hp : p ≠ []) :
    renderPath (p ++ [k]) ≠ "" := by
  obtain ⟨p0, ps, rfl⟩ := List.exists_cons_of_ne_nil hp
  intro h
  have hd := congrArg String.data h
  simp [renderPath, String.data_append, brTail_append_data,
    show ("" : String).data = [] from rfl] at hd

/-- The encoder's child-key construction extends the rendered path by one
segment. -/
theorem childKey_render (p : List String) (k : String) (hp : p ≠ [])
    (hne : renderPath p ≠ "") :
    childKey (some (renderPath p)) k = some (renderPath (p ++ [k])) := by
  simp [childKey, hne, renderPath_append p k hp]

/-! ### Association-list lemmas -/

/-- Lookup after write at the same key. -/
theorem assocGet_set_same (fields : List (String × DVal)) (k : String) (v : DVal) :
    assocGet (assocSet fields k v) k = some v := by
  induction fields with
  | nil => simp [assocSet, assocGet]
  | cons f rest ih =>
      obtain ⟨k', v'⟩ := f
      by_cases h : k' = k
      · subst h
        simp [assocSet, assocGet]
      · simp [assocSet, assocGet, h, ih]

/-- Writing twice at a key keeps only the second write. -/
theorem assocSet_set_same (fields : List (String × DVal)) (k : String) (a b : DVal) :
    assocSet (assocSet fields k a) k b = assocSet fields k b := by
  induction fields with
  | nil => simp [assocSet]
  | cons f rest ih =>
      obtain ⟨k', v'⟩ := f
      by_cases h : k' = k
      · subst h
        simp [assocSet]
      · simp [assocSet, h, ih]

/-- Writing at an absent key appends the binding. -/
theorem assocSet_of_get_none (fields : List (String × DVal)) (k : String) (v : DVal)
    (h : assocGet fields k = none) : assocSet fields k v = fields ++ [(k, v)] := by
  induction fields with
  | nil => simp [assocSet]
  | cons f rest ih =>
      obtain ⟨k', v'⟩ := f
      by_cases hk : k' = k
      · subst hk
        simp [assocGet] at h
      · simp only [assocGet, if_neg hk] at h
        simp [assocSet, hk, ih h]

/-- Lookup skips a disjoint left part. -/
theorem assocGet_append_none (f g : List (String × DVal)) (k : String)
    (h : assocGet f k = none) : assocGet (f ++ g) k = assocGet g k := by
  induction f with
  | nil => simp
  | cons x rest ih =>
      obtain ⟨k', v'⟩ := x
      by_cases hk : k' = k
      · subst hk
        simp [assocGet] at h
      · simp only [assocGet, if_neg hk] at h
        simp [assocGet, hk, ih h]

/-! ### Clean-path and graft lemmas -/

/-- The last segment of a list is a member. -/
theorem getLast?_mem_self : ∀ (l : List String) (a : String), l.getLast? = some a → a ∈ l
  | [], _, h => by simp at h
  | [x], a, h => by simp_all
  | x :: y :: rest, a, h => by
      rw [List.getLast?_cons_cons] at h
      exact List.mem_cons_of_mem _ (getLast?_mem_self (y :: rest) a h)

/-- On a path with a non-empty last segment, `assignNestedValue` is the walk
over the other segments followed by the final placement. -/
theorem assign_nonempty (root : DVal) (p : List String) (l : String) (v : DVal)
    (hl : p.getLast? = some l) (hne : l ≠ "") :
    assignNestedValue root p v = walkAssign root p.dropLast l v := by
  simp [assignNestedValue, hl, hne]

/-- Every non-empty path is clean in the empty object. -/
theorem cleanPath_empty : ∀ (p : List String), p ≠ [] → CleanPath (.dobj []) p
  | [], h => absurd rfl h
  | [k], _ => .last [] k rfl
  | k :: k2 :: rest, _ =>
      .stepNone [] k k2 rest rfl (cleanPath_empty (k2 :: rest) (by simp))

/-- A clean path stays clean when extended by one more segment. -/
theorem cleanPath_extend {root : DVal} {p : List String} (hc : CleanPath root p) :
    ∀ (k : String), CleanPath root (p ++ [k]) := by
  induction hc with
  | last fields k0 hnone =>
      intro k
      exact .stepNone fields k0 k [] hnone (.last [] k rfl)
  | stepNone fields k0 k2 rest hnone hsub ih =>
      intro k
      exact .stepNone fields k0 k2 (rest ++ [k]) hnone (by simpa using ih k)
  | stepObj fields fields2 k0 k2 rest hsome hsub ih =>
      intro k
      exact .stepObj fields fields2 k0 k2 (rest ++ [k]) hsome (by simpa using ih k)

/-- Unfolding a graft one step on an object root. -/
theorem graft_obj (f : List (String × DVal)) (k : String) (rest : List String) (X : DVal) :
    graft (.dobj f) (k :: rest) X = .dobj (assocSet f k (graft (lookupOr f k) rest X)) := by
  simp [graft]

/-- The decoder's insertion along a clean path of good keys is exactly a
graft. -/
theorem assign_eq_graft {root : DVal} {p : List String} (v : DVal) (hc : CleanPath root p) :
    (∀ k ∈ p, goodKey k = true) → assignNestedValue root p v = graft root p v := by
  induction hc with
  | last fields k hnone =>
      intro hg
      have hk := goodKey_ne_empty k (hg k (by simp))
      rw [assign_nonempty _ _ k v (by simp) hk]
      show placeFinal (.dobj fields) k v = _
      simp [placeFinal, hk, dGet, hnone, dSet, graft]
  | stepNone fields k k2 rest hnone hsub ih =>
      intro hg
      have hg2 : ∀ k' ∈ k2 :: rest, goodKey k' = true :=
        fun k' h' => hg k' (List.mem_cons_of_mem _ h')
      obtain ⟨l, hl⟩ : ∃ l, (k2 :: rest).getLast? = some l :=
        ⟨(k2 :: rest).getLast (by simp), List.getLast?_eq_getLast_of_ne_nil (by simp)⟩
      have hlne : l ≠ "" := goodKey_ne_empty l (hg2 l (getLast?_mem_self _ l hl))
      have hkd : isAllDigits k = false := (goodKey_spec k (hg k (by simp))).2.2.1
      rw [assign_nonempty _ _ l v (by rw [List.getLast?_cons_cons]; exact hl) hlne]
      rw [show (k :: k2 :: rest).dropLast = k :: (k2 :: rest).dropLast from rfl]
      rw [show walkAssign (.dobj fields) (k :: (k2 :: rest).dropLast) l v =
          dSet (.dobj fields) k (walkAssign (.dobj []) ((k2 :: rest).dropLast) l v) from by
        simp [walkAssign, dGet, hnone, freshFor, hkd]]
      rw [← assign_nonempty (.dobj []) (k2 :: rest) l v hl hlne, ih hg2]
      simp [graft, dSet, lookupOr, hnone]
  | stepObj fields fields2 k k2 rest hsome hsub ih =>
      intro hg
      have hg2 : ∀ k' ∈ k2 :: rest, goodKey k' = true :=
        fun k' h' => hg k' (List.mem_cons_of_mem _ h')
      obtain ⟨l, hl⟩ : ∃ l, (k2 :: rest).getLast? = some l :=
        ⟨(k2 :: rest).getLast (by simp), List.getLast?_eq_getLast_of_ne_nil (by simp)⟩
      have hlne : l ≠ "" := goodKey_ne_empty l (hg2 l (getLast?_mem_self _ l hl))
      rw [assign_nonempty _ _ l v (by rw [List.getLast?_cons_cons]; exact hl) hlne]
      rw [show (k :: k2 :: rest).dropLast = k :: (k2 :: rest).dropLast from rfl]
      rw [show walkAssign (.dobj fields) (k :: (k2 :: rest).dropLast) l v =
          dSet (.dobj fields) k (walkAssign (.dobj fields2) ((k2 :: rest).dropLast) l v) from by
        simp [walkAssign, dGet, hsome, isObjType]]
      rw [← assign_nonempty (.dobj fields2) (k2 :: rest) l v hl hlne, ih hg2]
      simp [graft, dSet, lookupOr, hsome]

/-- Grafting an object at a clean path leaves the extended path clean. -/
theorem cleanPath_graft {root : DVal} {p : List String} (hc : CleanPath root p) :
    ∀ (done : List (String × DVal)) (k : String), assocGet done k = none →
    CleanPath (graft root p (.dobj done)) (p ++ [k]) := by
  induction hc with
  | last fields k0 hnone =>
      intro done k hk
      rw [show graft (.dobj fields) [k0] (.dobj done) =
          .dobj (assocSet fields k0 (.dobj done)) from by simp [graft]]
      exact .stepObj _ done k0 k [] (assocGet_set_same fields k0 _) (.last done k hk)
  | stepNone fields k0 k2 rest hnone hsub ih =>
      intro done k hk
      have hlk : lookupOr fields k0 = .dobj [] := by simp [lookupOr, hnone]
      obtain ⟨cf, hcf⟩ : ∃ cf, graft (.dobj []) (k2 :: rest) (.dobj done) = .dobj cf :=
        ⟨_, graft_obj [] k2 rest _⟩
      have hsub' := ih done k hk
      rw [hcf] at hsub'
      show CleanPath (graft (.dobj fields) (k0 :: k2 :: rest) (.dobj done))
        (k0 :: ((k2 :: rest) ++ [k]))
      rw [graft_obj, hlk, hcf]
      exact .stepObj _ cf k0 k2 (rest ++ [k]) (assocGet_set_same fields k0 _)
        (by simpa using hsub')
  | stepObj fields fields2 k0 k2 rest hsome hsub ih =>
      intro done k hk
      have hlk : lookupOr fields k0 = .dobj fields2 := by simp [lookupOr, hsome]
      obtain ⟨cf, hcf⟩ : ∃ cf, graft (.dobj fields2) (k2 :: rest) (.dobj done) = .dobj cf :=
        ⟨_, graft_obj fields2 k2 rest _⟩
      have hsub' := ih done k hk
      rw [hcf] at hsub'
      show CleanPath (graft (.dobj fields) (k0 :: k2 :: rest) (.dobj done))
        (k0 :: ((k2 :: rest) ++ [k]))
      rw [graft_obj, hlk, hcf]
      exact .stepObj _ cf k0 k2 (rest ++ [k]) (assocGet_set_same fields k0 _)
        (by simpa using hsub')

/-- Grafting at an extension of a clean path wraps the value in a fresh
one-field object at the clean path. -/
theorem graft_snoc {root : DVal} {p : List String} (hc : CleanPath root p) :
    ∀ (k : String) (X : DVal), graft root (p ++ [k]) X = graft root p (.dobj [(k, X)]) := by
  induction hc with
  | last fields k0 hnone =>
      intro k X
      show graft (.dobj fields) (k0 :: [k]) X = _
      simp [graft, lookupOr, hnone, assocSet]
  | stepNone fields k0 k2 rest hnone hsub ih =>
      intro k X
      have ih' : graft (.dobj []) (k2 :: (rest ++ [k])) X =
          graft (.dobj []) (k2 :: rest) (.dobj [(k, X)]) := by simpa using ih k X
      show graft (.dobj fields) (k0 :: (k2 :: (rest ++ [k]))) X = _
      rw [graft_obj, graft_obj]
      rw [show lookupOr fields k0 = .dobj [] from by simp [lookupOr, hnone], ih']
  | stepObj fields fields2 k0 k2 rest hsome hsub ih =>
      intro k X
      have ih' : graft (.dobj fields2) (k2 :: (rest ++ [k])) X =
          graft (.dobj fields2) (k2 :: rest) (.dobj [(k, X)]) := by simpa using ih k X
      show graft (.dobj fields) (k0 :: (k2 :: (rest ++ [k]))) X = _
      rw [graft_obj, graft_obj]
      rw [show lookupOr fields k0 = .dobj fields2 from by simp [lookupOr, hsome], ih']

/-- Grafting below an already-grafted object extends that object by one
binding. -/
theorem graft_graft {root : DVal} {p : List String} (hc : CleanPath root p) :
    ∀ (done : List (String × DVal)) (k : String) (X : DVal),
    graft (graft root p (.dobj done)) (p ++ [k]) X =
      graft root p (.dobj (assocSet done k X)) := by
  induction hc with
  | last fields k0 hnone =>
      intro done k X
      show graft (graft (.dobj fields) [k0] (.dobj done)) (k0 :: [k]) X = _
      simp [graft, lookupOr, assocGet_set_same, assocSet_set_same]
  | stepNone fields k0 k2 rest hnone hsub ih =>
      intro done k X
      have hlk : lookupOr fields k0 = .dobj [] := by simp [lookupOr, hnone]
      obtain ⟨cf, hcf⟩ : ∃ cf, graft (.dobj []) (k2 :: rest) (.dobj done) = .dobj cf :=
        ⟨_, graft_obj [] k2 rest _⟩
      have ih' := ih done k X
      show graft (graft (.dobj fields) (k0 :: k2 :: rest) (.dobj done))
        (k0 :: (k2 :: (rest ++ [k]))) X = _
      rw [graft_obj, hlk, graft_obj]
      rw [show lookupOr (assocSet fields k0 (graft (.dobj []) (k2 :: rest) (.dobj done))) k0 =
          graft (.dobj []) (k2 :: rest) (.dobj done) from by
        simp [lookupOr, assocGet_set_same]]
      rw [assocSet_set_same]
      rw [show graft (graft (.dobj []) (k2 :: rest) (.dobj done)) (k2 :: (rest ++ [k])) X =
          graft (.dobj []) (k2 :: rest) (.dobj (assocSet done k X)) from by
        simpa using ih']
      simp [graft_obj, hlk]
  | stepObj fields fields2 k0 k2 rest hsome hsub ih =>
      intro done k X
      have hlk : lookupOr fields k0 = .dobj fields2 := by simp [lookupOr, hsome]
      have ih' := ih done k X
      show graft (graft (.dobj fields) (k0 :: k2 :: rest) (.dobj done))
        (k0 :: (k2 :: (rest ++ [k]))) X = _
      rw [graft_obj, hlk, graft_obj]
      rw [show lookupOr (assocSet fields k0 (graft (.dobj fields2) (k2 :: rest) (.dobj done))) k0 =
          graft (.dobj fields2) (k2 :: rest) (.dobj done) from by
        simp [lookupOr, assocGet_set_same]]
      rw [assocSet_set_same]
      rw [show graft (graft (.dobj fields2) (k2 :: rest) (.dobj done)) (k2 :: (rest ++ [k])) X =
          graft (.dobj fields2) (k2 :: rest) (.dobj (assocSet done k X)) from by
        simpa using ih']
      simp [graft_obj, hlk]

/-! ### Encoded entries of a safe tree as rendered leaf paths -/

/-- The components of a safe object. -/
theorem safeVal_obj (fields : List (String × JsVal)) (h : safeVal (.vobj fields) = true) :
    fields ≠ [] ∧ keysOk fields = true ∧ safeFields fields = true := by
  simp only [safeVal, Bool.and_eq_true, Bool.not_eq_true'] at h
  obtain ⟨⟨h1, h2⟩, h3⟩ := h
  refine ⟨?_, h2, h3⟩
  intro he
  subst he
  simp at h1

/-- The components of well-formed keys. -/
theorem keysOk_spec (fields : List (String × JsVal)) (h : keysOk fields = true) :
    (∀ f ∈ fields, goodKey f.1 = true) ∧ (fields.map Prod.fst).Nodup := by
  simpa only [keysOk, Bool.and_eq_true, List.all_eq_true, decide_eq_true_eq] using h

/-- Splitting a safe field list. -/
theorem safeFields_cons (k : String) (v : JsVal) (rest : List (String × JsVal))
    (h : safeFields ((k, v) :: rest) = true) : safeVal v = true ∧ safeFields rest = true := by
  simpa [safeFields, Bool.and_eq_true] using h

/-- Safe values are never `undefined`. -/
theorem safe_not_undef (v : JsVal) (h : safeVal v = true) : isUndef v = false := by
  cases v <;> simp_all [safeVal, isUndef]

mutual

/-- The pure entries of a safe value under a rendered namespace are its leaf
paths rendered below that namespace. -/
theorem pureEntries_leaves : ∀ (v : JsVal), safeVal v = true → ∀ (p : List String),
    p ≠ [] → renderPath p ≠ "" →
    pureEntries v (some (renderPath p)) =
      (leaves v).map (fun q => (renderPath (p ++ q.1), FdVal.fstr q.2))
  | .vstr s, _, p, _, _ => by simp [pureEntries, leaves, nsKeyStr]
  | .vnum s, _, p, _, _ => by simp [pureEntries, leaves, nsKeyStr]
  | .vbool b, _, p, _, _ => by simp [pureEntries, leaves, nsKeyStr]
  | .vobj fields, hs, p, hp, hne => by
      have h3 := (safeVal_obj fields hs).2.2
      show pureKeyed fields true (some (renderPath p)) = _
      exact pureKeyed_leaves fields h3 p hp hne
  | .vnull, hs, _, _, _ => by simp [safeVal] at hs
  | .vundef, hs, _, _, _ => by simp [safeVal] at hs
  | .vfun, hs, _, _, _ => by simp [safeVal] at hs
  | .vdate _, hs, _, _, _ => by simp [safeVal] at hs
  | .vblob _, hs, _, _, _ => by simp [safeVal] at hs
  | .varr _, hs, _, _, _ => by simp [safeVal] at hs
  | .vmap _, hs, _, _, _ => by simp [safeVal] at hs
  | .vset _, hs, _, _, _ => by simp [safeVal] at hs

/-- `pureEntries_leaves` for the object loop. -/
theorem pureKeyed_leaves : ∀ (fields : List (String × JsVal)), safeFields fields = true →
    ∀ (p : List String), p ≠ [] → renderPath p ≠ "" →
    pureKeyed fields true (some (renderPath p)) =
      (leavesF fields).map (fun q => (renderPath (p ++ q.1), FdVal.fstr q.2))
  | [], _, p, _, _ => by simp [pureKeyed, leavesF]
  | (k, v) :: rest, hs, p, hp, hne => by
      obtain ⟨hsv, hsr⟩ := safeFields_cons k v rest hs
      have hu : isUndef v = false := safe_not_undef v hsv
      rw [show pureKeyed ((k, v) :: rest) true (some (renderPath p)) =
          pureEntries v (childKey (some (renderPath p)) k) ++
            pureKeyed rest true (some (renderPath p)) from by
        show (if (true && isUndef v) = true then pureKeyed rest true (some (renderPath p))
          else pureEntries v (childKey (some (renderPath p)) k) ++
            pureKeyed rest true (some (renderPath p))) = _
        rw [hu]
        simp]
      rw [childKey_render p k hp hne]
      rw [pureEntries_leaves v hsv (p ++ [k]) (by simp) (renderPath_append_ne_empty p k hp)]
      rw [pureKeyed_leaves rest hsr p hp hne]
      simp [leavesF, List.map_map, Function.comp, List.append_assoc]

end

/-- The pure entries of a safe field list at top level are its leaf paths
rendered with no namespace prefix. -/
theorem pureKeyed_leaves_root : ∀ (fields : List (String × JsVal)), safeFields fields = true →
    (∀ f ∈ fields, goodKey f.1 = true) →
    pureKeyed fields true none =
      (leavesF fields).map (fun q => (renderPath q.1, FdVal.fstr q.2))
  | [], _, _ => by simp [pureKeyed, leavesF]
  | (k, v) :: rest, hs, hg => by
      obtain ⟨hsv, hsr⟩ := safeFields_cons k v rest hs
      have hu : isUndef v = false := safe_not_undef v hsv
      have hkg : goodKey k = true := hg (k, v) (by simp)
      have h1 : renderPath [k] = k := renderPath_single k
      rw [show pureKeyed ((k, v) :: rest) true none =
          pureEntries v (childKey none k) ++ pureKeyed rest true none from by
        show (if (true && isUndef v) = true then pureKeyed rest true none
          else pureEntries v (childKey none k) ++ pureKeyed rest true none) = _
        rw [hu]
        simp]
      rw [show childKey none k = some (renderPath [k]) from by simp [childKey, h1]]
      rw [pureEntries_leaves v hsv [k] (by simp) (by rw [h1]; exact goodKey_ne_empty k hkg)]
      rw [pureKeyed_leaves_root rest hsr (fun f hf => hg f (List.mem_cons_of_mem _ hf))]
      simp [leavesF, List.map_map, Function.comp]

mutual

/-- Every key on a leaf path of a safe value is good. -/
theorem leaves_keys_good : ∀ (v : JsVal), safeVal v = true →
    ∀ q ∈ leaves v, ∀ k ∈ q.1, goodKey k = true
  | .vstr s, _ => by
      intro q hq k hk
      simp [leaves] at hq
      subst hq
      simp at hk
  | .vnum s, _ => by
      intro q hq k hk
      simp [leaves] at hq
      subst hq
      simp at hk
  | .vbool b, _ => by
      intro q hq k hk
      simp [leaves] at hq
      subst hq
      simp at hk
  | .vobj fields, hs => by
      intro q hq k hk
      obtain ⟨_, hko, hsf⟩ := safeVal_obj fields hs
      exact leavesF_keys_good fields hsf (keysOk_spec fields hko).1 q hq k hk
  | .vnull, hs => by simp [safeVal] at hs
  | .vundef, hs => by simp [safeVal] at hs
  | .vfun, hs => by simp [safeVal] at hs
  | .vdate _, hs => by simp [safeVal] at hs
  | .vblob _, hs => by simp [safeVal] at hs
  | .varr _, hs => by simp [safeVal] at hs
  | .vmap _, hs => by simp [safeVal] at hs
  | .vset _, hs => by simp [safeVal] at hs

/-- `leaves_keys_good` for field lists. -/
theorem leavesF_keys_good : ∀ (fields : List (String × JsVal)), safeFields fields = true →
    (∀ f ∈ fields, goodKey f.1 = true) →
    ∀ q ∈ leavesF fields, ∀ k ∈ q.1, goodKey k = true
  | [], _, _ => by
      intro q hq
      simp [leavesF] at hq
  | (k0, v) :: rest, hs, hg => by
      intro q hq k hk
      obtain ⟨hsv, hsr⟩ := safeFields_cons k0 v rest hs
      simp only [leavesF, List.mem_append, List.mem_map] at hq
      rcases hq with ⟨q', hq', rfl⟩ | hq
      · rcases List.mem_cons.mp hk with rfl | hk'
        · exact hg _ (List.mem_cons_self _ _)
        · exact leaves_keys_good v hsv q' hq' k hk'
      · exact leavesF_keys_good rest hsr (fun f hf => hg f (List.mem_cons_of_mem _ hf)) q hq k hk

end

/-- Leaf paths of a field list are non-empty (they start with the field
key). -/
theorem leavesF_keys_nonempty : ∀ (fields : List (String × JsVal)),
    ∀ q ∈ leavesF fields, q.1 ≠ []
  | [] => by
      intro q hq
      simp [leavesF] at hq
  | (k0, v) :: rest => by
      intro q hq
      simp only [leavesF, List.mem_append, List.mem_map] at hq
      rcases hq with ⟨q', _, rfl⟩ | hq
      · simp
      · exact leavesF_keys_nonempty rest q hq

mutual

/-- Decoding the rendered leaf entries of a safe value below a clean path
grafts the stringified value at that path. -/
theorem roundtrip_go : ∀ (v : JsVal), safeVal v = true → ∀ (p : List String) (root : DVal),
    p ≠ [] → (∀ k ∈ p, goodKey k = true) → CleanPath root p →
    List.foldl insStep root ((leaves v).map (fun q => (p ++ q.1, q.2))) = graft root p (strMap v)
  | .vstr s, _, p, root, _, hg, hc => by
      show List.foldl insStep root [(p ++ [], s)] = graft root p (.dstr s)
      simp only [List.foldl_cons, List.foldl_nil, List.append_nil]
      exact assign_eq_graft (.dstr s) hc hg
  | .vnum s, _, p, root, _, hg, hc => by
      show List.foldl insStep root [(p ++ [], s)] = graft root p (.dstr s)
      simp only [List.foldl_cons, List.foldl_nil, List.append_nil]
      exact assign_eq_graft (.dstr s) hc hg
  | .vbool b, _, p, root, _, hg, hc => by
      show List.foldl insStep root [(p ++ [], if b then "true" else "false")] =
        graft root p (.dstr (if b then "true" else "false"))
      simp only [List.foldl_cons, List.foldl_nil, List.append_nil]
      exact assign_eq_graft (.dstr (if b then "true" else "false")) hc hg
  | .vobj fields, hs, p, root, hp, hg, hc => by
      obtain ⟨hne', hko, hsf⟩ := safeVal_obj fields hs
      obtain ⟨hgood, hnodup⟩ := keysOk_spec fields hko
      cases fields with
      | nil => exact absurd rfl hne'
      | cons f rest =>
          obtain ⟨k1, v1⟩ := f
          obtain ⟨hsv1, hsrest⟩ := safeFields_cons k1 v1 rest hsf
          have hk1good : goodKey k1 = true := hgood (k1, v1) (by simp)
          have hgood' : ∀ f ∈ rest, goodKey f.1 = true :=
            fun f hf => hgood f (List.mem_cons_of_mem _ hf)
          have hnodup' : (rest.map Prod.fst).Nodup := by
            simp only [List.map_cons] at hnodup
            exact hnodup.of_cons
          have hk1notin : k1 ∉ rest.map Prod.fst := by
            simp only [List.map_cons] at hnodup
            exact (List.nodup_cons.mp hnodup).1
          show List.foldl insStep root
            ((leavesF ((k1, v1) :: rest)).map (fun q => (p ++ q.1, q.2))) = _
          rw [show leavesF ((k1, v1) :: rest) =
              (leaves v1).map (fun q => (k1 :: q.1, q.2)) ++ leavesF rest from rfl]
          rw [List.map_append, List.foldl_append]
          rw [show ((leaves v1).map (fun q => (k1 :: q.1, q.2))).map (fun q => (p ++ q.1, q.2)) =
              (leaves v1).map (fun q => ((p ++ [k1]) ++ q.1, q.2)) from by
            rw [List.map_map]
            apply List.map_congr_left
            intro q _
            simp [Function.comp, List.append_assoc]]
          rw [roundtrip_go v1 hsv1 (p ++ [k1]) root (by simp)
            (by intro k hk
                rcases List.mem_append.mp hk with hk | hk
                · exact hg k hk
                · simp at hk
                  subst hk
                  exact hk1good)
            (cleanPath_extend hc k1)]
          rw [graft_snoc hc k1 (strMap v1)]
          rw [roundtrip_goF rest hsrest hgood' hnodup' p root [(k1, strMap v1)] hp hg hc
            (by intro f hf
                have h2 : f.1 ∈ rest.map Prod.fst := List.mem_map_of_mem Prod.fst hf
                have hne2 : k1 ≠ f.1 := fun he => hk1notin (he ▸ h2)
                simp [assocGet, hne2])]
          rfl
  | .vnull, hs, _, _, _, _, _ => by simp [safeVal] at hs
  | .vundef, hs, _, _, _, _, _ => by simp [safeVal] at hs
  | .vfun, hs, _, _, _, _, _ => by simp [safeVal] at hs
  | .vdate _, hs, _, _, _, _, _ => by simp [safeVal] at hs
  | .vblob _, hs, _, _, _, _, _ => by simp [safeVal] at hs
  | .varr _, hs, _, _, _, _, _ => by simp [safeVal] at hs
  | .vmap _, hs, _, _, _, _, _ => by simp [safeVal] at hs
  | .vset _, hs, _, _, _, _, _ => by simp [safeVal] at hs

/-- Decoding the rendered leaf entries of the remaining safe fields, starting
from the already-grafted processed bindings, appends their stringified
bindings. -/
theorem roundtrip_goF : ∀ (fields : List (String × JsVal)), safeFields fields = true →
    (∀ f ∈ fields, goodKey f.1 = true) → (fields.map Prod.fst).Nodup →
    ∀ (p : List String) (root : DVal) (done : List (String × DVal)), p ≠ [] →
    (∀ k ∈ p, goodKey k = true) → CleanPath root p →
    (∀ f ∈ fields, assocGet done f.1 = none) →
    List.foldl insStep (graft root p (.dobj done))
        ((leavesF fields).map (fun q => (p ++ q.1, q.2))) =
      graft root p (.dobj (done ++ strFields fields))
  | [], _, _, _, p, root, done, _, _, _, _ => by simp [leavesF, strFields]
  | (k, v) :: rest, hs, hgood, hnodup, p, root, done, hp, hg, hc, hdisj => by
      obtain ⟨hsv, hsr⟩ := safeFields_cons k v rest hs
      have hkg : goodKey k = true := hgood (k, v) (by simp)
      have hgood' : ∀ f ∈ rest, goodKey f.1 = true :=
        fun f hf => hgood f (List.mem_cons_of_mem _ hf)
      have hnodup' : (rest.map Prod.fst).Nodup := by
        simp only [List.map_cons] at hnodup
        exact hnodup.of_cons
      have hknotin : k ∉ rest.map Prod.fst := by
        simp only [List.map_cons] at hnodup
        exact (List.nodup_cons.mp hnodup).1
      have hdk : assocGet done k = none := hdisj (k, v) (by simp)
      rw [show leavesF ((k, v) :: rest) =
          (leaves v).map (fun q => (k :: q.1, q.2)) ++ leavesF rest from rfl]
      rw [List.map_append, List.foldl_append]
      rw [show ((leaves v).map (fun q => (k :: q.1, q.2))).map (fun q => (p ++ q.1, q.2)) =
          (leaves v).map (fun q => ((p ++ [k]) ++ q.1, q.2)) from by
        rw [List.map_map]
        apply List.map_congr_left
        intro q _
        simp [Function.comp, List.append_assoc]]
      rw [roundtrip_go v hsv (p ++ [k]) (graft root p (.dobj done)) (by simp)
        (by intro k' hk'
            rcases List.mem_append.mp hk' with h | h
            · exact hg k' h
            · simp at h
              subst h
              exact hkg)
        (cleanPath_graft hc done k hdk)]
      rw [graft_graft hc done k (strMap v)]
      rw [assocSet_of_get_none done k (strMap v) hdk]
      rw [roundtrip_goF rest hsr hgood' hnodup' p root (done ++ [(k, strMap v)]) hp hg hc
        (by intro f hf
            have h1 : assocGet done f.1 = none := hdisj f (List.mem_cons_of_mem _ hf)
            have h2 : f.1 ∈ rest.map Prod.fst := List.mem_map_of_mem Prod.fst hf
            have hne2 : k ≠ f.1 := fun he => hknotin (he ▸ h2)
            rw [assocGet_append_none done _ f.1 h1]
            simp [assocGet, hne2])]
      rw [List.append_assoc]
      rfl

end

/-- Decoding the rendered leaf entries of a safe field list at top level,
starting from an object holding disjoint processed bindings, appends the
stringified bindings in order. -/
theorem roundtrip_top : ∀ (fields : List (String × JsVal)), safeFields fields = true →
    (∀ f ∈ fields, goodKey f.1 = true) → (fields.map Prod.fst).Nodup →
    ∀ (done : List (String × DVal)), (∀ f ∈ fields, assocGet done f.1 = none) →
    List.foldl insStep (.dobj done) (leavesF fields) = .dobj (done ++ strFields fields)
  | [], _, _, _, done, _ => by simp [leavesF, strFields]
  | (k, v) :: rest, hs, hgood, hnodup, done, hdisj => by
      obtain ⟨hsv, hsr⟩ := safeFields_cons k v rest hs
      have hkg : goodKey k = true := hgood (k, v) (by simp)
      have hgood' : ∀ f ∈ rest, goodKey f.1 = true :=
        fun f hf => hgood f (List.mem_cons_of_mem _ hf)
      have hnodup' : (rest.map Prod.fst).Nodup := by
        simp only [List.map_cons] at hnodup
        exact hnodup.of_cons
      have hknotin : k ∉ rest.map Prod.fst := by
        simp only [List.map_cons] at hnodup
        exact (List.nodup_cons.mp hnodup).1
      have hdk : assocGet done k = none := hdisj (k, v) (by simp)
      rw [show leavesF ((k, v) :: rest) =
          (leaves v).map (fun q => (k :: q.1, q.2)) ++ leavesF rest from rfl]
      rw [List.foldl_append]
      rw [show (leaves v).map (fun q => (k :: q.1, q.2)) =
          (leaves v).map (fun q => ([k] ++ q.1, q.2)) from rfl]
      rw [roundtrip_go v hsv [k] (.dobj done) (by simp)
        (by intro k' hk'
            simp at hk'
            subst hk'
            exact hkg)
        (.last done k hdk)]
      rw [show graft (.dobj done) [k] (strMap v) = .dobj (assocSet done k (strMap v)) from by
        simp [graft]]
      rw [assocSet_of_get_none done k (strMap v) hdk]
      rw [roundtrip_top rest hsr hgood' hnodup' (done ++ [(k, strMap v)])
        (by intro f hf
            have h1 : assocGet done f.1 = none := hdisj f (List.mem_cons_of_mem _ hf)
            have h2 : f.1 ∈ rest.map Prod.fst := List.mem_map_of_mem Prod.fst hf
            have hne2 : k ≠ f.1 := fun he => hknotin (he ▸ h2)
            rw [assocGet_append_none done _ f.1 h1]
            simp [assocGet, hne2])]
      rw [List.append_assoc]
      rfl

/-- C1 amended: for trees built only from plain keyed composites and
string/number/boolean leaves whose object keys are non-empty, bracket-free,
not all-digit, not `Object.prototype` properties and pairwise distinct, and
whose nested composites are non-empty, the encode succeeds and decoding its
output reproduces the tree's structure with every leaf replaced by the string
form of the original primitive.  (Sequences are excluded: see the
counterexample — an encoded array index decodes into a mapping keyed by the
index's digits.  Prototype keys are excluded because the decoder's inherited
`!== undefined` read at line 32 would coalesce the inherited function with
the value.) -/
theorem roundtrip_amended (fields : List (String × JsVal)) (h : safeRoot fields = true) :
    ∃ es, fromObject (.vobj fields) = .ok es ∧ toObject es = .dobj (strFields fields) := by
  have h' : keysOk fields = true ∧ safeFields fields = true := by
    simpa [safeRoot, Bool.and_eq_true] using h
  obtain ⟨hko, hsf⟩ := h'
  obtain ⟨hgood, hnodup⟩ := keysOk_spec fields hko
  refine ⟨pureEntries (.vobj fields) none, fromObject_eq_pure _, ?_⟩
  rw [show pureEntries (.vobj fields) none = pureKeyed fields true none from rfl]
  rw [pureKeyed_leaves_root fields hsf hgood]
  have hstep : toObject ((leavesF fields).map (fun q => (renderPath q.1, FdVal.fstr q.2))) =
      List.foldl insStep (.dobj []) (leavesF fields) := by
    unfold toObject
    rw [List.foldl_map]
    apply List.foldl_ext
    intro a q hq
    show assignNestedValue a (keysOf (renderPath q.1)) (fdToDVal (FdVal.fstr q.2)) = insStep a q
    rw [keysOf_renderPath q.1 (leavesF_keys_nonempty fields q hq)
      (leavesF_keys_good fields hsf hgood q hq)]
    rfl
  rw [hstep]
  have htop := roundtrip_top fields hsf hgood hnodup [] (fun f _ => rfl)
  simpa using htop

/-- Witness for the amended round trip at a concrete safe tree: a two-level
object of string/number leaves. -/
theorem roundtrip_amended_witness :
    safeRoot [("user", JsVal.vobj [("name", .vstr "Alice"), ("age", .vnum "30")])] = true ∧
      ∃ es,
        fromObject (.vobj [("user", JsVal.vobj [("name", .vstr "Alice"), ("age", .vnum "30")])]) =
          .ok es ∧
        toObject es =
          .dobj (strFields [("user", JsVal.vobj [("name", .vstr "Alice"), ("age", .vnum "30")])]) :=
  ⟨by decide, roundtrip_amended _ (by decide)⟩

section RenderSanity
example : renderPath ["user", "name"] = "user[name]" := by decide
example : keysOf (renderPath ["user", "name"]) = ["user", "name"] := by decide
end RenderSanity

/-! ### The heap model of the encoder

Cyclic object graphs are not representable as inductive trees, so the
cycle-detection claims are settled over an explicit heap: objects live at
numbered references (`HVal.ref` — reference identity is index equality,
matching the `WeakSet` semantics) and every object kind of the source's
dispatch (`Date`, `Blob`, `Array`, `Map`, `Set`, plain object) is a heap
node.  The encoder `goH` mirrors `FormDataUtil.fromObject` exactly — the
early null/undefined return, the seen-check and add before dispatch, the
per-kind loops, the final delete — with fuel to express the recursion
(exhaustion is a distinct result, proved unreachable at the fuel
`fromObjectH` supplies). -/

/-- A primitive JavaScript value in the heap model. -/
inductive HAtom where
  | hstr (s : String)
  | hnum (s : String)
  | hbool (b : Bool)
  | hundef
  | hnull
  | hfun
deriving DecidableEq, Repr

/-- A JavaScript value: a primitive or a reference to a heap object. -/
inductive HVal where
  | atom (a : HAtom)
  | ref (r : Nat)
deriving DecidableEq, Repr

/-- A heap object: one node per object kind the encoder dispatches on.
Valid dates carry their ISO string; `ndateInvalid` is an invalid date
(`new Date(NaN)`), whose `toISOString()` throws `RangeError: Invalid time
value` in the source; blobs carry their opaque id. -/
inductive HNode where
  | nobj (fields : List (String × HVal))
  | narr (elems : List HVal)
  | nmapC (pairs : List (String × HVal))
  | nsetC (elems : List HVal)
  | ndate (iso : String)
  | ndateInvalid
  | nblob (id : Nat)
deriving DecidableEq, Repr

/-- Failure of the heap encoder: the cyclic-reference error of the source,
the `RangeError` thrown by `toISOString()` on an invalid date (line 78), or
fuel exhaustion (an artifact of the embedding, proved unreachable). -/
inductive EncErr where
  | cycle
  | invalidDate
  | fuel
deriving DecidableEq, Repr

mutual

/-- `FormDataUtil.fromObject` over the heap: null/undefined first, then for a
reference the seen-check (throw the cyclic error on a hit), the add, the
dispatch by node kind, and the delete after all descendants.  A dangling
reference (no node in the heap — impossible in JavaScript) encodes nothing. -/
def goH (heap : List HNode) : Nat → HVal → Option String → List Nat → List Entry →
    Except EncErr (List Entry × List Nat)
  | 0, _, _, _, _ => .error .fuel
  | _ + 1, .atom .hnull, _, seen, acc => .ok (acc, seen)
  | _ + 1, .atom .hundef, _, seen, acc => .ok (acc, seen)
  | _ + 1, .atom (.hstr s), ns, seen, acc => .ok (acc ++ [(nsKeyStr ns, .fstr s)], seen)
  | _ + 1, .atom (.hnum s), ns, seen, acc => .ok (acc ++ [(nsKeyStr ns, .fstr s)], seen)
  | _ + 1, .atom (.hbool b), ns, seen, acc =>
      .ok (acc ++ [(nsKeyStr ns, .fstr (if b then "true" else "false"))], seen)
  | _ + 1, .atom .hfun, _, seen, acc => .ok (acc, seen)
  | fuel + 1, .ref r, ns, seen, acc =>
      if r ∈ seen then .error .cycle
      else
        match heap.get? r with
        | none => .ok (acc, seen)
        | some (.ndate iso) => .ok (acc ++ [(nsKeyStr ns, .fstr iso)], (r :: seen).erase r)
        | some .ndateInvalid => .error .invalidDate
        | some (.nblob id) => .ok (acc ++ [(nsKeyStr ns, .fblob id)], (r :: seen).erase r)
        | some (.narr elems) => do
            let res ← goHIdx heap fuel elems 0 ns (r :: seen) acc
            .ok (res.1, res.2.erase r)
        | some (.nmapC pairs) => do
            let res ← goHKeyed heap fuel pairs false ns (r :: seen) acc
            .ok (res.1, res.2.erase r)
        | some (.nsetC elems) => do
            let res ← goHIdx heap fuel elems 0 ns (r :: seen) acc
            .ok (res.1, res.2.erase r)
        | some (.nobj fields) => do
            let res ← goHKeyed heap fuel fields true ns (r :: seen) acc
            .ok (res.1, res.2.erase r)

/-- The indexed loops (arrays and sets) of the heap encoder. -/
def goHIdx (heap : List HNode) (fuel : Nat) :
    List HVal → Nat → Option String → List Nat → List Entry →
    Except EncErr (List Entry × List Nat)
  | [], _, _, seen, acc => .ok (acc, seen)
  | e :: rest, i, ns, seen, acc => do
      let res ← goH heap fuel e (childKey ns (toString i)) seen acc
      goHIdx heap fuel rest (i + 1) ns res.2 res.1

/-- The keyed loops (maps and plain objects, the latter skipping
`undefined`-valued properties) of the heap encoder. -/
def goHKeyed (heap : List HNode) (fuel : Nat) :
    List (String × HVal) → Bool → Option String → List Nat → List Entry →
    Except EncErr (List Entry × List Nat)
  | [], _, _, seen, acc => .ok (acc, seen)
  | (k, v) :: rest, skipUndef, ns, seen, acc =>
      if skipUndef && (v = HVal.atom .hundef) then
        goHKeyed heap fuel rest skipUndef ns seen acc
      else do
        let res ← goH heap fuel v (childKey ns k) seen acc
        goHKeyed heap fuel rest skipUndef ns res.2 res.1

end

/-- `FormDataUtil.fromObject` at the public heap-model entry point: fresh
accumulator, absent namespace, fresh `seen` set, and enough fuel for the
deepest possible ancestor chain (one heap node per level plus an atom). -/
def fromObjectH (heap : List HNode) (v : HVal) : Except EncErr (List Entry × List Nat) :=
  goH heap (heap.length + 2) v none [] []

/-- The child values of a heap node (the values its encoder branch recurses
into). -/
def childVals : HNode → List HVal
  | .nobj fields => fields.map Prod.snd
  | .narr elems => elems
  | .nmapC pairs => pairs.map Prod.snd
  | .nsetC elems => elems
  | .ndate _ => []
  | .ndateInvalid => []
  | .nblob _ => []

/-- The node is an invalid date. -/
def HNode.isInvalidDate : HNode → Bool
  | .ndateInvalid => true
  | _ => false

/-- No invalid date anywhere in the heap: `toISOString()` cannot throw.  The
scope under which the cycle criterion is exact (an invalid date encountered
before the cycle check would throw `RangeError` first). -/
def datesOk (heap : List HNode) : Bool :=
  heap.all fun n => ! n.isInvalidDate

/-- The references among a list of values. -/
def refsOf (vs : List HVal) : List Nat :=
  vs.filterMap fun v => match v with | .ref r => some r | _ => none

/-- The composite-containment edge: node `a` holds a direct reference to
node `b`. -/
def Edge (heap : List HNode) (a b : Nat) : Prop :=
  ∃ n, heap.get? a = some n ∧ b ∈ refsOf (childVals n)

/-- The heap node `x` is reachable from the value `v` by composite
containment. -/
def ReachHV (heap : List HNode) (v : HVal) (x : Nat) : Prop :=
  ∃ r, v = .ref r ∧ Relation.ReflTransGen (Edge heap) r x

section HeapSanity

example :
    fromObjectH [HNode.nobj [("self", .ref 0)]] (.ref 0) = .error .cycle := by
  simp [fromObjectH, goH, goHIdx, goHKeyed, childKey, nsKeyStr, Bind.bind, Except.bind]

example :
    fromObjectH [HNode.nobj [("a", .ref 1), ("b", .ref 1)], HNode.nobj [("x", .atom (.hnum "1"))]]
        (.ref 0) =
      .ok ([("a[x]", .fstr "1"), ("b[x]", .fstr "1")], []) := by
  simp [fromObjectH, goH, goHIdx, goHKeyed, childKey, nsKeyStr, Bind.bind, Except.bind]

example :
    fromObjectH [HNode.narr [.atom (.hstr "x"), .ref 1], HNode.ndate "d"] (.ref 0) =
      .ok ([("0", .fstr "x"), ("1", .fstr "d")], []) := by
  simp [fromObjectH, goH, goHIdx, goHKeyed, childKey, nsKeyStr, Bind.bind, Except.bind]
  exact ⟨rfl, rfl⟩

end HeapSanity

mutual

/-- On success the encoder restores the `seen` set: every node added during a
subtree is deleted when that subtree completes. -/
theorem goH_restore : ∀ (heap : List HNode) (fuel : Nat) (v : HVal) (ns : Option String)
    (seen : List Nat) (acc es : List Entry) (seen' : List Nat),
    goH heap fuel v ns seen acc = .ok (es, seen') → seen' = seen
  | heap, 0, v, ns, seen, acc, es, seen', h => by simp [goH] at h
  | heap, fuel + 1, .atom a, ns, seen, acc, es, seen', h => by
      cases a <;> simp only [goH] at h <;>
        (injection h with h2; injection h2 with h3 h4; exact h4.symm)
  | heap, fuel + 1, .ref r, ns, seen, acc, es, seen', h => by
      by_cases hr : r ∈ seen
      · simp only [goH, if_pos hr] at h
        exact absurd h (by simp)
      · cases hg : heap.get? r with
        | none =>
            simp only [goH, if_neg hr, hg] at h
            injection h with h2
            injection h2 with h3 h4
            exact h4.symm
        | some node =>
            cases node with
            | ndate iso =>
                simp only [goH, if_neg hr, hg] at h
                injection h with h2
                injection h2 with h3 h4
                rw [← h4, List.erase_cons_head]
            | ndateInvalid =>
                simp only [goH, if_neg hr, hg] at h
                exact absurd h (by simp)
            | nblob id =>
                simp only [goH, if_neg hr, hg] at h
                injection h with h2
                injection h2 with h3 h4
                rw [← h4, List.erase_cons_head]
            | narr elems =>
                simp only [goH, if_neg hr, hg] at h
                cases hres : goHIdx heap fuel elems 0 ns (r :: seen) acc with
                | error err =>
                    rw [hres] at h
                    simp [Bind.bind, Except.bind] at h
                | ok res =>
                    rw [hres] at h
                    simp only [Bind.bind, Except.bind] at h
                    have hs1 : res.2 = r :: seen :=
                      goHIdx_restore heap fuel elems 0 ns (r :: seen) acc res.1 res.2
                        (by rw [hres])
                    injection h with h2
                    injection h2 with h3 h4
                    rw [← h4, hs1, List.erase_cons_head]
            | nsetC elems =>
                simp only [goH, if_neg hr, hg] at h
                cases hres : goHIdx heap fuel elems 0 ns (r :: seen) acc with
                | error err =>
                    rw [hres] at h
                    simp [Bind.bind, Except.bind] at h
                | ok res =>
                    rw [hres] at h
                    simp only [Bind.bind, Except.bind] at h
                    have hs1 : res.2 = r :: seen :=
                      goHIdx_restore heap fuel elems 0 ns (r :: seen) acc res.1 res.2
                        (by rw [hres])
                    injection h with h2
                    injection h2 with h3 h4
                    rw [← h4, hs1, List.erase_cons_head]
            | nmapC pairs =>
                simp only [goH, if_neg hr, hg] at h
                cases hres : goHKeyed heap fuel pairs false ns (r :: seen) acc with
                | error err =>
                    rw [hres] at h
                    simp [Bind.bind, Except.bind] at h
                | ok res =>
                    rw [hres] at h
                    simp only [Bind.bind, Except.bind] at h
                    have hs1 : res.2 = r :: seen :=
                      goHKeyed_restore heap fuel pairs false ns (r :: seen) acc res.1 res.2
                        (by rw [hres])
                    injection h with h2
                    injection h2 with h3 h4
                    rw [← h4, hs1, List.erase_cons_head]
            | nobj fields =>
                simp only [goH, if_neg hr, hg] at h
                cases hres : goHKeyed heap fuel fields true ns (r :: seen) acc with
                | error err =>
                    rw [hres] at h
                    simp [Bind.bind, Except.bind] at h
                | ok res =>
                    rw [hres] at h
                    simp only [Bind.bind, Except.bind] at h
                    have hs1 : res.2 = r :: seen :=
                      goHKeyed_restore heap fuel fields true ns (r :: seen) acc res.1 res.2
                        (by rw [hres])
                    injection h with h2
                    injection h2 with h3 h4
                    rw [← h4, hs1, List.erase_cons_head]

/-- `goH_restore` for the indexed loops. -/
theorem goHIdx_restore : ∀ (heap : List HNode) (fuel : Nat) (elems : List HVal) (i : Nat)
    (ns : Option String) (seen : List Nat) (acc es : List Entry) (seen' : List Nat),
    goHIdx heap fuel elems i ns seen acc = .ok (es, seen') → seen' = seen
  | heap, fuel, [], i, ns, seen, acc, es, seen', h => by
      simp only [goHIdx] at h
      injection h with h2
      injection h2 with h3 h4
      exact h4.symm
  | heap, fuel, e :: rest, i, ns, seen, acc, es, seen', h => by
      simp only [goHIdx] at h
      cases hres : goH heap fuel e (childKey ns (toString i)) seen acc with
      | error err =>
          rw [hres] at h
          simp [Bind.bind, Except.bind] at h
      | ok res =>
          rw [hres] at h
          simp only [Bind.bind, Except.bind] at h
          have h1 : res.2 = seen :=
            goH_restore heap fuel e _ seen acc res.1 res.2 (by rw [hres])
          have h2 : seen' = res.2 :=
            goHIdx_restore heap fuel rest (i + 1) ns res.2 res.1 es seen' h
          rw [h2, h1]

/-- `goH_restore` for the keyed loops. -/
theorem goHKeyed_restore : ∀ (heap : List HNode) (fuel : Nat)
    (fields : List (String × HVal)) (skipUndef : Bool) (ns : Option String)
    (seen : List Nat) (acc es : List Entry) (seen' : List Nat),
    goHKeyed heap fuel fields skipUndef ns seen acc = .ok (es, seen') → seen' = seen
  | heap, fuel, [], skipUndef, ns, seen, acc, es, seen', h => by
      simp only [goHKeyed] at h
      injection h with h2
      injection h2 with h3 h4
      exact h4.symm
  | heap, fuel, (k, v) :: rest, skipUndef, ns, seen, acc, es, seen', h => by
      simp only [goHKeyed] at h
      by_cases hb : (skipUndef && (v = HVal.atom .hundef : Bool)) = true
      · rw [if_pos hb] at h
        exact goHKeyed_restore heap fuel rest skipUndef ns seen acc es seen' h
      · rw [if_neg hb] at h
        cases hres : goH heap fuel v (childKey ns k) seen acc with
        | error err =>
            rw [hres] at h
            simp [Bind.bind, Except.bind] at h
        | ok res =>
            rw [hres] at h
            simp only [Bind.bind, Except.bind] at h
            have h1 : res.2 = seen :=
              goH_restore heap fuel v _ seen acc res.1 res.2 (by rw [hres])
            have h2 : seen' = res.2 :=
              goHKeyed_restore heap fuel rest skipUndef ns res.2 res.1 es seen' h
            rw [h2, h1]

end

/-- A duplicate-free list of naturals all below `n` has at most `n`
elements. -/
theorem nodup_bounded_length (l : List Nat) (n : Nat) (hnd : l.Nodup)
    (hb : ∀ x ∈ l, x < n) : l.length ≤ n := by
  have h1 : l.toFinset ⊆ Finset.range n := by
    intro x hx
    simp only [List.mem_toFinset] at hx
    simpa using hb x hx
  have h2 := Finset.card_le_card h1
  rwa [List.toFinset_card_of_nodup hnd, Finset.card_range] at h2

mutual

/-- The encoder never exhausts its fuel when the fuel exceeds the number of
heap nodes not yet on the ancestor path: each level of composite nesting
pushes one fresh node onto the duplicate-free `seen` list, so the ancestor
chain can never grow past the heap size. -/
theorem goH_nofuel : ∀ (heap : List HNode) (fuel : Nat) (v : HVal) (ns : Option String)
    (seen : List Nat) (acc : List Entry),
    seen.Nodup → (∀ x ∈ seen, x < heap.length) → heap.length + 1 ≤ fuel + seen.length →
    goH heap fuel v ns seen acc ≠ .error .fuel
  | heap, 0, v, ns, seen, acc, hnd, hb, hf => by
      exfalso
      have := nodup_bounded_length seen heap.length hnd hb
      omega
  | heap, fuel + 1, .atom a, ns, seen, acc, _, _, _ => by
      cases a <;> simp [goH]
  | heap, fuel + 1, .ref r, ns, seen, acc, hnd, hb, hf => by
      by_cases hr : r ∈ seen
      · simp [goH, if_pos hr]
      · cases hg : heap.get? r with
        | none =>
            simp only [goH, if_neg hr, hg]
            simp
        | some node =>
            have hrlt : r < heap.length := by
              rcases List.get?_eq_some.mp hg with ⟨hlt, _⟩
              exact hlt
            have hnd' : (r :: seen).Nodup := List.nodup_cons.mpr ⟨hr, hnd⟩
            have hb' : ∀ x ∈ r :: seen, x < heap.length := by
              intro x hx
              rcases List.mem_cons.mp hx with rfl | hx
              · exact hrlt
              · exact hb x hx
            have hf' : heap.length + 1 ≤ fuel + (r :: seen).length := by
              simp only [List.length_cons]
              omega
            cases node with
            | ndate iso =>
                simp only [goH, if_neg hr, hg]
                simp
            | ndateInvalid =>
                simp only [goH, if_neg hr, hg]
                simp
            | nblob id =>
                simp only [goH, if_neg hr, hg]
                simp
            | narr elems =>
                intro h
                simp only [goH, if_neg hr, hg] at h
                cases hres : goHIdx heap fuel elems 0 ns (r :: seen) acc with
                | error err =>
                    rw [hres] at h
                    simp only [Bind.bind, Except.bind] at h
                    injection h with h2
                    exact goHIdx_nofuel heap fuel elems 0 ns (r :: seen) acc hnd' hb' hf'
                      (by rw [hres, h2])
                | ok res =>
                    rw [hres] at h
                    simp [Bind.bind, Except.bind] at h
            | nsetC elems =>
                intro h
                simp only [goH, if_neg hr, hg] at h
                cases hres : goHIdx heap fuel elems 0 ns (r :: seen) acc with
                | error err =>
                    rw [hres] at h
                    simp only [Bind.bind, Except.bind] at h
                    injection h with h2
                    exact goHIdx_nofuel heap fuel elems 0 ns (r :: seen) acc hnd' hb' hf'
                      (by rw [hres, h2])
                | ok res =>
                    rw [hres] at h
                    simp [Bind.bind, Except.bind] at h
            | nmapC pairs =>
                intro h
                simp only [goH, if_neg hr, hg] at h
                cases hres : goHKeyed heap fuel pairs false ns (r :: seen) acc with
                | error err =>
                    rw [hres] at h
                    simp only [Bind.bind, Except.bind] at h
                    injection h with h2
                    exact goHKeyed_nofuel heap fuel pairs false ns (r :: seen) acc hnd' hb' hf'
                      (by rw [hres, h2])
                | ok res =>
                    rw [hres] at h
                    simp [Bind.bind, Except.bind] at h
            | nobj fields =>
                intro h
                simp only [goH, if_neg hr, hg] at h
                cases hres : goHKeyed heap fuel fields true ns (r :: seen) acc with
                | error err =>
                    rw [hres] at h
                    simp only [Bind.bind, Except.bind] at h
                    injection h with h2
                    exact goHKeyed_nofuel heap fuel fields true ns (r :: seen) acc hnd' hb' hf'
                      (by rw [hres, h2])
                | ok res =>
                    rw [hres] at h
                    simp [Bind.bind, Except.bind] at h

/-- `goH_nofuel` for the indexed loops. -/
theorem goHIdx_nofuel : ∀ (heap : List HNode) (fuel : Nat) (elems : List HVal) (i : Nat)
    (ns : Option String) (seen : List Nat) (acc : List Entry),
    seen.Nodup → (∀ x ∈ seen, x < heap.length) → heap.length + 1 ≤ fuel + seen.length →
    goHIdx heap fuel elems i ns seen acc ≠ .error .fuel
  | heap, fuel, [], i, ns, seen, acc, _, _, _ => by simp [goHIdx]
  | heap, fuel, e :: rest, i, ns, seen, acc, hnd, hb, hf => by
      intro h
      simp only [goHIdx] at h
      cases hres : goH heap fuel e (childKey ns (toString i)) seen acc with
      | error err =>
          rw [hres] at h
          simp only [Bind.bind, Except.bind] at h
          injection h with h2
          exact goH_nofuel heap fuel e _ seen acc hnd hb hf (by rw [hres, h2])
      | ok res =>
          rw [hres] at h
          simp only [Bind.bind, Except.bind] at h
          have h1 : res.2 = seen :=
            goH_restore heap fuel e _ seen acc res.1 res.2 (by rw [hres])
          exact goHIdx_nofuel heap fuel rest (i + 1) ns res.2 res.1
            (by rw [h1]; exact hnd) (by rw [h1]; exact hb) (by rw [h1]; exact hf) h

/-- `goH_nofuel` for the keyed loops. -/
theorem goHKeyed_nofuel : ∀ (heap : List HNode) (fuel : Nat)
    (fields : List (String × HVal)) (skipUndef : Bool) (ns : Option String)
    (seen : List Nat) (acc : List Entry),
    seen.Nodup → (∀ x ∈ seen, x < heap.length) → heap.length + 1 ≤ fuel + seen.length →
    goHKeyed heap fuel fields skipUndef ns seen acc ≠ .error .fuel
  | heap, fuel, [], skipUndef, ns, seen, acc, _, _, _ => by simp [goHKeyed]
  | heap, fuel, (k, v) :: rest, skipUndef, ns, seen, acc, hnd, hb, hf => by
      intro h
      simp only [goHKeyed] at h
      by_cases hsk : (skipUndef && (v = HVal.atom .hundef : Bool)) = true
      · rw [if_pos hsk] at h
        exact goHKeyed_nofuel heap fuel rest skipUndef ns seen acc hnd hb hf h
      · rw [if_neg hsk] at h
        cases hres : goH heap fuel v (childKey ns k) seen acc with
        | error err =>
            rw [hres] at h
            simp only [Bind.bind, Except.bind] at h
            injection h with h2
            exact goH_nofuel heap fuel v _ seen acc hnd hb hf (by rw [hres, h2])
        | ok res =>
            rw [hres] at h
            simp only [Bind.bind, Except.bind] at h
            have h1 : res.2 = seen :=
              goH_restore heap fuel v _ seen acc res.1 res.2 (by rw [hres])
            exact goHKeyed_nofuel heap fuel rest skipUndef ns res.2 res.1
              (by rw [h1]; exact hnd) (by rw [h1]; exact hb) (by rw [h1]; exact hf) h

end

mutual

/-- When the heap holds no invalid date, the encoder never raises the
invalid-date error. -/
theorem goH_nodate : ∀ (heap : List HNode) (fuel : Nat) (v : HVal) (ns : Option String)
    (seen : List Nat) (acc : List Entry), datesOk heap = true →
    goH heap fuel v ns seen acc ≠ .error .invalidDate
  | heap, 0, v, ns, seen, acc, _ => by simp [goH]
  | heap, fuel + 1, .atom a, ns, seen, acc, _ => by cases a <;> simp [goH]
  | heap, fuel + 1, .ref r, ns, seen, acc, hd => by
      by_cases hr : r ∈ seen
      · simp [goH, if_pos hr]
      · cases hg : heap.get? r with
        | none =>
            simp only [goH, if_neg hr, hg]
            simp
        | some node =>
            cases node with
            | ndate iso =>
                simp only [goH, if_neg hr, hg]
                simp
            | ndateInvalid =>
                exfalso
                have hmem : HNode.ndateInvalid ∈ heap := List.get?_mem hg
                have hok := List.all_eq_true.mp hd _ hmem
                simp [HNode.isInvalidDate] at hok
            | nblob id =>
                simp only [goH, if_neg hr, hg]
                simp
            | narr elems =>
                intro h
                simp only [goH, if_neg hr, hg] at h
                cases hres : goHIdx heap fuel elems 0 ns (r :: seen) acc with
                | error err =>
                    rw [hres] at h
                    simp only [Bind.bind, Except.bind] at h
                    injection h with h2
                    exact goHIdx_nodate heap fuel elems 0 ns (r :: seen) acc hd
                      (by rw [hres, h2])
                | ok res =>
                    rw [hres] at h
                    simp [Bind.bind, Except.bind] at h
            | nsetC elems =>
                intro h
                simp only [goH, if_neg hr, hg] at h
                cases hres : goHIdx heap fuel elems 0 ns (r :: seen) acc with
                | error err =>
                    rw [hres] at h
                    simp only [Bind.bind, Except.bind] at h
                    injection h with h2
                    exact goHIdx_nodate heap fuel elems 0 ns (r :: seen) acc hd
                      (by rw [hres, h2])
                | ok res =>
                    rw [hres] at h
                    simp [Bind.bind, Except.bind] at h
            | nmapC pairs =>
                intro h
                simp only [goH, if_neg hr, hg] at h
                cases hres : goHKeyed heap fuel pairs false ns (r :: seen) acc with
                | error err =>
                    rw [hres] at h
                    simp only [Bind.bind, Except.bind] at h
                    injection h with h2
                    exact goHKeyed_nodate heap fuel pairs false ns (r :: seen) acc hd
                      (by rw [hres, h2])
                | ok res =>
                    rw [hres] at h
                    simp [Bind.bind, Except.bind] at h
            | nobj fields =>
                intro h
                simp only [goH, if_neg hr, hg] at h
                cases hres : goHKeyed heap fuel fields true ns (r :: seen) acc with
                | error err =>
                    rw [hres] at h
                    simp only [Bind.bind, Except.bind] at h
                    injection h with h2
                    exact goHKeyed_nodate heap fuel fields true ns (r :: seen) acc hd
                      (by rw [hres, h2])
                | ok res =>
                    rw [hres] at h
                    simp [Bind.bind, Except.bind] at h

/-- `goH_nodate` for the indexed loops. -/
theorem goHIdx_nodate : ∀ (heap : List HNode) (fuel : Nat) (elems : List HVal) (i : Nat)
    (ns : Option String) (seen : List Nat) (acc : List Entry), datesOk heap = true →
    goHIdx heap fuel elems i ns seen acc ≠ .error .invalidDate
  | heap, fuel, [], i, ns, seen, acc, _ => by simp [goHIdx]
  | heap, fuel, e :: rest, i, ns, seen, acc, hd => by
      intro h
      simp only [goHIdx] at h
      cases hres : goH heap fuel e (childKey ns (toString i)) seen acc with
      | error err =>
          rw [hres] at h
          simp only [Bind.bind, Except.bind] at h
          injection h with h2
          exact goH_nodate heap fuel e _ seen acc hd (by rw [hres, h2])
      | ok res =>
          rw [hres] at h
          simp only [Bind.bind, Except.bind] at h
          exact goHIdx_nodate heap fuel rest (i + 1) ns res.2 res.1 hd h

/-- `goH_nodate` for the keyed loops. -/
theorem goHKeyed_nodate : ∀ (heap : List HNode) (fuel : Nat)
    (fields : List (String × HVal)) (skipUndef : Bool) (ns : Option String)
    (seen : List Nat) (acc : List Entry), datesOk heap = true →
    goHKeyed heap fuel fields skipUndef ns seen acc ≠ .error .invalidDate
  | heap, fuel, [], skipUndef, ns, seen, acc, _ => by simp [goHKeyed]
  | heap, fuel, (k, v) :: rest, skipUndef, ns, seen, acc, hd => by
      intro h
      simp only [goHKeyed] at h
      by_cases hsk : (skipUndef && (v = HVal.atom .hundef : Bool)) = true
      · rw [if_pos hsk] at h
        exact goHKeyed_nodate heap fuel rest skipUndef ns seen acc hd h
      · rw [if_neg hsk] at h
        cases hres : goH heap fuel v (childKey ns k) seen acc with
        | error err =>
            rw [hres] at h
            simp only [Bind.bind, Except.bind] at h
            injection h with h2
            exact goH_nodate heap fuel v _ seen acc hd (by rw [hres, h2])
        | ok res =>
            rw [hres] at h
            simp only [Bind.bind, Except.bind] at h
            exact goHKeyed_nodate heap fuel rest skipUndef ns res.2 res.1 hd h

end

/-- Walking up an ancestor chain: every member of the chain reaches its most
recent element through containment edges. -/
theorem chain_reach (heap : List HNode) : ∀ (seen : List Nat),
    List.Chain' (fun a b => Edge heap b a) seen →
    ∀ x ∈ seen, ∀ p1 rest, seen = p1 :: rest → Relation.ReflTransGen (Edge heap) x p1
  | [], _, x, hx, _, _, _ => by simp at hx
  | p :: rest, hch, x, hx, p1, rest', heq => by
      injection heq with h1 h2
      subst h1
      subst h2
      rcases List.mem_cons.mp hx with rfl | hx2
      · exact Relation.ReflTransGen.refl
      · obtain ⟨p2, rest2, rfl⟩ := List.exists_cons_of_ne_nil (List.ne_nil_of_mem hx2)
        have hcc := List.chain'_cons.mp hch
        exact Relation.ReflTransGen.tail
          (chain_reach heap (p2 :: rest2) hcc.2 x hx2 p2 rest2 rfl) hcc.1

/-- A reference among a node's children yields a containment edge. -/
theorem edge_of_child (heap : List HNode) (r r' : Nat) (node : HNode)
    (hg : heap.get? r = some node) (hmem : HVal.ref r' ∈ childVals node) :
    Edge heap r r' := by
  refine ⟨node, hg, ?_⟩
  exact List.mem_filterMap.mpr ⟨.ref r', hmem, rfl⟩

mutual

/-- If the encoder raises the cyclic error, the input really contains an
object reachable from the value that lies on a containment cycle.  The
`seen` list is constrained to be the ancestor chain of the current value
(most recent first), which is how the encoder maintains it. -/
theorem goH_cycle_sound : ∀ (heap : List HNode) (fuel : Nat) (v : HVal) (ns : Option String)
    (seen : List Nat) (acc : List Entry),
    List.Chain' (fun a b => Edge heap b a) seen →
    (∀ r, v = .ref r → seen = [] ∨ ∃ p1 rest, seen = p1 :: rest ∧ Edge heap p1 r) →
    goH heap fuel v ns seen acc = .error .cycle →
    ∃ x, ReachHV heap v x ∧ Relation.TransGen (Edge heap) x x
  | heap, 0, v, ns, seen, acc, _, _, h => by simp [goH] at h
  | heap, fuel + 1, .atom a, ns, seen, acc, _, _, h => by cases a <;> simp [goH] at h
  | heap, fuel + 1, .ref r, ns, seen, acc, hch, hlink, h => by
      by_cases hr : r ∈ seen
      · rcases hlink r rfl with hemp | ⟨p1, rest, heq, hedge⟩
        · rw [hemp] at hr
          simp at hr
        · refine ⟨r, ⟨r, rfl, Relation.ReflTransGen.refl⟩, ?_⟩
          exact Relation.TransGen.tail'
            (chain_reach heap seen hch r hr p1 rest heq) hedge
      · cases hg : heap.get? r with
        | none =>
            simp only [goH, if_neg hr, hg] at h
            exact absurd h (by simp)
        | some node =>
            have hch' : List.Chain' (fun a b => Edge heap b a) (r :: seen) := by
              cases seen with
              | nil => simp
              | cons p1 rest =>
                  rcases hlink r rfl with hemp | ⟨p1', rest', heq, hedge⟩
                  · simp at hemp
                  · injection heq with e1 e2
                    subst e1
                    subst e2
                    exact List.chain'_cons.mpr ⟨hedge, hch⟩
            have hlink' : ∀ e ∈ childVals node, ∀ r2, e = HVal.ref r2 →
                r :: seen = [] ∨ ∃ p1 rest2, r :: seen = p1 :: rest2 ∧ Edge heap p1 r2 := by
              intro e he r2 her
              refine Or.inr ⟨r, seen, rfl, ?_⟩
              exact edge_of_child heap r r2 _ hg (her ▸ he)
            cases node with
            | ndate iso =>
                simp only [goH, if_neg hr, hg] at h
                exact absurd h (by simp)
            | ndateInvalid =>
                simp only [goH, if_neg hr, hg] at h
                exact absurd h (by simp)
            | nblob id =>
                simp only [goH, if_neg hr, hg] at h
                exact absurd h (by simp)
            | narr elems =>
                simp only [goH, if_neg hr, hg] at h
                cases hres : goHIdx heap fuel elems 0 ns (r :: seen) acc with
                | error err =>
                    rw [hres] at h
                    simp only [Bind.bind, Except.bind] at h
                    injection h with h2
                    obtain ⟨x, ⟨e, he, r2, her, hreach⟩, hcyc⟩ :=
                      goHIdx_cycle_sound heap fuel elems 0 ns (r :: seen) acc hch'
                        (fun e he => hlink' e he) (by rw [hres, h2])
                    refine ⟨x, ⟨r, rfl, ?_⟩, hcyc⟩
                    exact Relation.ReflTransGen.head
                      (edge_of_child heap r r2 _ hg (her ▸ he)) hreach
                | ok res =>
                    rw [hres] at h
                    simp [Bind.bind, Except.bind] at h
            | nsetC elems =>
                simp only [goH, if_neg hr, hg] at h
                cases hres : goHIdx heap fuel elems 0 ns (r :: seen) acc with
                | error err =>
                    rw [hres] at h
                    simp only [Bind.bind, Except.bind] at h
                    injection h with h2
                    obtain ⟨x, ⟨e, he, r2, her, hreach⟩, hcyc⟩ :=
                      goHIdx_cycle_sound heap fuel elems 0 ns (r :: seen) acc hch'
                        (fun e he => hlink' e he) (by rw [hres, h2])
                    refine ⟨x, ⟨r, rfl, ?_⟩, hcyc⟩
                    exact Relation.ReflTransGen.head
                      (edge_of_child heap r r2 _ hg (her ▸ he)) hreach
                | ok res =>
                    rw [hres] at h
                    simp [Bind.bind, Except.bind] at h
            | nmapC pairs =>
                simp only [goH, if_neg hr, hg] at h
                cases hres : goHKeyed heap fuel pairs false ns (r :: seen) acc with
                | error err =>
                    rw [hres] at h
                    simp only [Bind.bind, Except.bind] at h
                    injection h with h2
                    obtain ⟨x, ⟨e, he, r2, her, hreach⟩, hcyc⟩ :=
                      goHKeyed_cycle_sound heap fuel pairs false ns (r :: seen) acc hch'
                        (fun e he => hlink' e he) (by rw [hres, h2])
                    refine ⟨x, ⟨r, rfl, ?_⟩, hcyc⟩
                    exact Relation.ReflTransGen.head
                      (edge_of_child heap r r2 _ hg (her ▸ he)) hreach
                | ok res =>
                    rw [hres] at h
                    simp [Bind.bind, Except.bind] at h
            | nobj fields =>
                simp only [goH, if_neg hr, hg] at h
                cases hres : goHKeyed heap fuel fields true ns (r :: seen) acc with
                | error err =>
                    rw [hres] at h
                    simp only [Bind.bind, Except.bind] at h
                    injection h with h2
                    obtain ⟨x, ⟨e, he, r2, her, hreach⟩, hcyc⟩ :=
                      goHKeyed_cycle_sound heap fuel fields true ns (r :: seen) acc hch'
                        (fun e he => hlink' e he) (by rw [hres, h2])
                    refine ⟨x, ⟨r, rfl, ?_⟩, hcyc⟩
                    exact Relation.ReflTransGen.head
                      (edge_of_child heap r r2 _ hg (her ▸ he)) hreach
                | ok res =>
                    rw [hres] at h
                    simp [Bind.bind, Except.bind] at h

/-- `goH_cycle_sound` for the indexed loops: an error comes from some
element. -/
theorem goHIdx_cycle_sound : ∀ (heap : List HNode) (fuel : Nat) (elems : List HVal)
    (i : Nat) (ns : Option String) (seen : List Nat) (acc : List Entry),
    List.Chain' (fun a b => Edge heap b a) seen →
    (∀ e ∈ elems, ∀ r, e = HVal.ref r →
      seen = [] ∨ ∃ p1 rest, seen = p1 :: rest ∧ Edge heap p1 r) →
    goHIdx heap fuel elems i ns seen acc = .error .cycle →
    ∃ x, (∃ e ∈ elems, ∃ r, e = HVal.ref r ∧ Relation.ReflTransGen (Edge heap) r x) ∧
      Relation.TransGen (Edge heap) x x
  | heap, fuel, [], i, ns, seen, acc, _, _, h => by simp [goHIdx] at h
  | heap, fuel, e :: rest, i, ns, seen, acc, hch, hlink, h => by
      simp only [goHIdx] at h
      cases hres : goH heap fuel e (childKey ns (toString i)) seen acc with
      | error err =>
          rw [hres] at h
          simp only [Bind.bind, Except.bind] at h
          injection h with h2
          obtain ⟨x, ⟨r, her, hreach⟩, hcyc⟩ :=
            goH_cycle_sound heap fuel e _ seen acc hch
              (fun r hr => hlink e (List.mem_cons_self e rest) r hr) (by rw [hres, h2])
          exact ⟨x, ⟨e, List.mem_cons_self e rest, r, her, hreach⟩, hcyc⟩
      | ok res =>
          rw [hres] at h
          simp only [Bind.bind, Except.bind] at h
          have h1 : res.2 = seen :=
            goH_restore heap fuel e _ seen acc res.1 res.2 (by rw [hres])
          obtain ⟨x, ⟨e2, he2, r, her, hreach⟩, hcyc⟩ :=
            goHIdx_cycle_sound heap fuel rest (i + 1) ns res.2 res.1
              (by rw [h1]; exact hch)
              (by rw [h1]; exact fun e2 he2 => hlink e2 (List.mem_cons_of_mem _ he2)) h
          exact ⟨x, ⟨e2, List.mem_cons_of_mem _ he2, r, her, hreach⟩, hcyc⟩

/-- `goH_cycle_sound` for the keyed loops. -/
theorem goHKeyed_cycle_sound : ∀ (heap : List HNode) (fuel : Nat)
    (fields : List (String × HVal)) (skipUndef : Bool) (ns : Option String)
    (seen : List Nat) (acc : List Entry),
    List.Chain' (fun a b => Edge heap b a) seen →
    (∀ e ∈ fields.map Prod.snd, ∀ r, e = HVal.ref r →
      seen = [] ∨ ∃ p1 rest, seen = p1 :: rest ∧ Edge heap p1 r) →
    goHKeyed heap fuel fields skipUndef ns seen acc = .error .cycle →
    ∃ x, (∃ e ∈ fields.map Prod.snd, ∃ r, e = HVal.ref r ∧
        Relation.ReflTransGen (Edge heap) r x) ∧
      Relation.TransGen (Edge heap) x x
  | heap, fuel, [], skipUndef, ns, seen, acc, _, _, h => by simp [goHKeyed] at h
  | heap, fuel, (k, v) :: rest, skipUndef, ns, seen, acc, hch, hlink, h => by
      simp only [goHKeyed] at h
      by_cases hsk : (skipUndef && (v = HVal.atom .hundef : Bool)) = true
      · rw [if_pos hsk] at h
        obtain ⟨x, ⟨e2, he2, r, her, hreach⟩, hcyc⟩ :=
          goHKeyed_cycle_sound heap fuel rest skipUndef ns seen acc hch
            (fun e2 he2 => hlink e2 (by simp only [List.map_cons]; exact List.mem_cons_of_mem _ he2)) h
        exact ⟨x, ⟨e2, by simp only [List.map_cons]; exact List.mem_cons_of_mem _ he2,
          r, her, hreach⟩, hcyc⟩
      · rw [if_neg hsk] at h
        cases hres : goH heap fuel v (childKey ns k) seen acc with
        | error err =>
            rw [hres] at h
            simp only [Bind.bind, Except.bind] at h
            injection h with h2
            obtain ⟨x, ⟨r, her, hreach⟩, hcyc⟩ :=
              goH_cycle_sound heap fuel v _ seen acc hch
                (fun r hr => hlink v (by simp) r hr) (by rw [hres, h2])
            exact ⟨x, ⟨v, by simp, r, her, hreach⟩, hcyc⟩
        | ok res =>
            rw [hres] at h
            simp only [Bind.bind, Except.bind] at h
            have h1 : res.2 = seen :=
              goH_restore heap fuel v _ seen acc res.1 res.2 (by rw [hres])
            obtain ⟨x, ⟨e2, he2, r, her, hreach⟩, hcyc⟩ :=
              goHKeyed_cycle_sound heap fuel rest skipUndef ns res.2 res.1
                (by rw [h1]; exact hch)
                (by rw [h1]
                    exact fun e2 he2 => hlink e2
                      (by simp only [List.map_cons]; exact List.mem_cons_of_mem _ he2)) h
            exact ⟨x, ⟨e2, by simp only [List.map_cons]; exact List.mem_cons_of_mem _ he2,
              r, her, hreach⟩, hcyc⟩

end

/-- A containment edge out of `r` exposes a reference child of `r`'s node. -/
theorem child_of_edge (heap : List HNode) (r y : Nat) (node : HNode)
    (hg : heap.get? r = some node) (he : Edge heap r y) :
    HVal.ref y ∈ childVals node := by
  obtain ⟨n, hn, hy⟩ := he
  rw [hg] at hn
  injection hn with hn
  subst hn
  obtain ⟨e, hmem, hsome⟩ := List.mem_filterMap.mp hy
  cases e with
  | atom a => simp at hsome
  | ref r2 =>
      simp only [Option.some.injEq] at hsome
      subst hsome
      exact hmem

mutual

/-- If the encoder succeeds, nothing reachable from the value is on the
ancestor chain, and nothing reachable lies on a containment cycle (the
depth-first enter/exit marking visits every containment path). -/
theorem goH_ok_sound : ∀ (heap : List HNode) (fuel : Nat) (v : HVal) (ns : Option String)
    (seen : List Nat) (acc es : List Entry) (seen' : List Nat),
    goH heap fuel v ns seen acc = .ok (es, seen') →
    ∀ x, ReachHV heap v x → x ∉ seen ∧ ¬ Relation.TransGen (Edge heap) x x
  | heap, 0, v, ns, seen, acc, es, seen', h => by simp [goH] at h
  | heap, fuel + 1, .atom a, ns, seen, acc, es, seen', h => by
      intro x hx
      obtain ⟨r, her, _⟩ := hx
      cases her
  | heap, fuel + 1, .ref r, ns, seen, acc, es, seen', h => by
      intro x hx
      obtain ⟨r', her, hreach⟩ := hx
      injection her with her
      subst her
      by_cases hr : r ∈ seen
      · simp only [goH, if_pos hr] at h
        exact absurd h (by simp)
      · cases hg : heap.get? r with
        | none =>
            rcases Relation.ReflTransGen.cases_head hreach with rfl | ⟨y, hry, _⟩
            · constructor
              · exact hr
              · intro hcyc
                obtain ⟨y, hry, _⟩ := (Relation.TransGen.head'_iff).mp hcyc
                obtain ⟨n, hn, _⟩ := hry
                rw [hg] at hn
                cases hn
            · obtain ⟨n, hn, _⟩ := hry
              rw [hg] at hn
              cases hn
        | some node =>
            cases node with
            | ndate iso =>
                rcases Relation.ReflTransGen.cases_head hreach with rfl | ⟨y, hry, _⟩
                · refine ⟨hr, ?_⟩
                  intro hcyc
                  obtain ⟨y, hry, _⟩ := (Relation.TransGen.head'_iff).mp hcyc
                  have := child_of_edge heap r y _ hg hry
                  simp [childVals] at this
                · have := child_of_edge heap r y _ hg hry
                  simp [childVals] at this
            | ndateInvalid =>
                simp only [goH, if_neg hr, hg] at h
                exact absurd h (by simp)
            | nblob id =>
                rcases Relation.ReflTransGen.cases_head hreach with rfl | ⟨y, hry, _⟩
                · refine ⟨hr, ?_⟩
                  intro hcyc
                  obtain ⟨y, hry, _⟩ := (Relation.TransGen.head'_iff).mp hcyc
                  have := child_of_edge heap r y _ hg hry
                  simp [childVals] at this
                · have := child_of_edge heap r y _ hg hry
                  simp [childVals] at this
            | narr elems =>
                simp only [goH, if_neg hr, hg] at h
                cases hres : goHIdx heap fuel elems 0 ns (r :: seen) acc with
                | error err =>
                    rw [hres] at h
                    simp [Bind.bind, Except.bind] at h
                | ok res =>
                    have hsub := goHIdx_ok_sound heap fuel elems 0 ns (r :: seen) acc
                      res.1 res.2 (by rw [hres])
                    rcases Relation.ReflTransGen.cases_head hreach with rfl | ⟨y, hry, hyx⟩
                    · refine ⟨hr, ?_⟩
                      intro hcyc
                      obtain ⟨y, hry, hyr⟩ := (Relation.TransGen.head'_iff).mp hcyc
                      have hy := child_of_edge heap r y _ hg hry
                      have h2 := (hsub (.ref y) hy r ⟨y, rfl, hyr⟩).1
                      simp at h2
                    · have hy := child_of_edge heap r y _ hg hry
                      have := hsub (.ref y) hy x ⟨y, rfl, hyx⟩
                      exact ⟨fun hx2 => this.1 (List.mem_cons_of_mem _ hx2), this.2⟩
            | nsetC elems =>
                simp only [goH, if_neg hr, hg] at h
                cases hres : goHIdx heap fuel elems 0 ns (r :: seen) acc with
                | error err =>
                    rw [hres] at h
                    simp [Bind.bind, Except.bind] at h
                | ok res =>
                    have hsub := goHIdx_ok_sound heap fuel elems 0 ns (r :: seen) acc
                      res.1 res.2 (by rw [hres])
                    rcases Relation.ReflTransGen.cases_head hreach with rfl | ⟨y, hry, hyx⟩
                    · refine ⟨hr, ?_⟩
                      intro hcyc
                      obtain ⟨y, hry, hyr⟩ := (Relation.TransGen.head'_iff).mp hcyc
                      have hy := child_of_edge heap r y _ hg hry
                      have h2 := (hsub (.ref y) hy r ⟨y, rfl, hyr⟩).1
                      simp at h2
                    · have hy := child_of_edge heap r y _ hg hry
                      have := hsub (.ref y) hy x ⟨y, rfl, hyx⟩
                      exact ⟨fun hx2 => this.1 (List.mem_cons_of_mem _ hx2), this.2⟩
            | nmapC pairs =>
                simp only [goH, if_neg hr, hg] at h
                cases hres : goHKeyed heap fuel pairs false ns (r :: seen) acc with
                | error err =>
                    rw [hres] at h
                    simp [Bind.bind, Except.bind] at h
                | ok res =>
                    have hsub := goHKeyed_ok_sound heap fuel pairs false ns (r :: seen) acc
                      res.1 res.2 (by rw [hres])
                    rcases Relation.ReflTransGen.cases_head hreach with rfl | ⟨y, hry, hyx⟩
                    · refine ⟨hr, ?_⟩
                      intro hcyc
                      obtain ⟨y, hry, hyr⟩ := (Relation.TransGen.head'_iff).mp hcyc
                      have hy := child_of_edge heap r y _ hg hry
                      have h2 := (hsub (.ref y) hy r ⟨y, rfl, hyr⟩).1
                      simp at h2
                    · have hy := child_of_edge heap r y _ hg hry
                      have := hsub (.ref y) hy x ⟨y, rfl, hyx⟩
                      exact ⟨fun hx2 => this.1 (List.mem_cons_of_mem _ hx2), this.2⟩
            | nobj fields =>
                simp only [goH, if_neg hr, hg] at h
                cases hres : goHKeyed heap fuel fields true ns (r :: seen) acc with
                | error err =>
                    rw [hres] at h
                    simp [Bind.bind, Except.bind] at h
                | ok res =>
                    have hsub := goHKeyed_ok_sound heap fuel fields true ns (r :: seen) acc
                      res.1 res.2 (by rw [hres])
                    rcases Relation.ReflTransGen.cases_head hreach with rfl | ⟨y, hry, hyx⟩
                    · refine ⟨hr, ?_⟩
                      intro hcyc
                      obtain ⟨y, hry, hyr⟩ := (Relation.TransGen.head'_iff).mp hcyc
                      have hy := child_of_edge heap r y _ hg hry
                      have h2 := (hsub (.ref y) hy r ⟨y, rfl, hyr⟩).1
                      simp at h2
                    · have hy := child_of_edge heap r y _ hg hry
                      have := hsub (.ref y) hy x ⟨y, rfl, hyx⟩
                      exact ⟨fun hx2 => this.1 (List.mem_cons_of_mem _ hx2), this.2⟩

/-- `goH_ok_sound` for the indexed loops: the guarantee holds for every
element. -/
theorem goHIdx_ok_sound : ∀ (heap : List HNode) (fuel : Nat) (elems : List HVal) (i : Nat)
    (ns : Option String) (seen : List Nat) (acc es : List Entry) (seen' : List Nat),
    goHIdx heap fuel elems i ns seen acc = .ok (es, seen') →
    ∀ e ∈ elems, ∀ x, ReachHV heap e x → x ∉ seen ∧ ¬ Relation.TransGen (Edge heap) x x
  | heap, fuel, [], i, ns, seen, acc, es, seen', h => by
      intro e he
      simp at he
  | heap, fuel, e0 :: rest, i, ns, seen, acc, es, seen', h => by
      intro e he x hx
      simp only [goHIdx] at h
      cases hres : goH heap fuel e0 (childKey ns (toString i)) seen acc with
      | error err =>
          rw [hres] at h
          simp [Bind.bind, Except.bind] at h
      | ok res =>
          rw [hres] at h
          simp only [Bind.bind, Except.bind] at h
          have h1 : res.2 = seen :=
            goH_restore heap fuel e0 _ seen acc res.1 res.2 (by rw [hres])
          rcases List.mem_cons.mp he with rfl | he2
          · exact goH_ok_sound heap fuel e _ seen acc res.1 res.2 (by rw [hres]) x hx
          · have := goHIdx_ok_sound heap fuel rest (i + 1) ns res.2 res.1 es seen' h
              e he2 x hx
            exact ⟨by rw [h1] at this; exact this.1, this.2⟩

/-- `goH_ok_sound` for the keyed loops. -/
theorem goHKeyed_ok_sound : ∀ (heap : List HNode) (fuel : Nat)
    (fields : List (String × HVal)) (skipUndef : Bool) (ns : Option String)
    (seen : List Nat) (acc es : List Entry) (seen' : List Nat),
    goHKeyed heap fuel fields skipUndef ns seen acc = .ok (es, seen') →
    ∀ e ∈ fields.map Prod.snd, ∀ x, ReachHV heap e x →
      x ∉ seen ∧ ¬ Relation.TransGen (Edge heap) x x
  | heap, fuel, [], skipUndef, ns, seen, acc, es, seen', h => by
      intro e he
      simp at he
  | heap, fuel, (k, v) :: rest, skipUndef, ns, seen, acc, es, seen', h => by
      intro e he x hx
      simp only [goHKeyed] at h
      by_cases hsk : (skipUndef && (v = HVal.atom .hundef : Bool)) = true
      · rw [if_pos hsk] at h
        simp only [List.map_cons, List.mem_cons] at he
        rcases he with rfl | he2
        · obtain ⟨r, her, _⟩ := hx
          have hv : e = HVal.atom .hundef := by
            have := (Bool.and_eq_true _ _).mp hsk
            exact of_decide_eq_true this.2
          rw [hv] at her
          cases her
        · exact goHKeyed_ok_sound heap fuel rest skipUndef ns seen acc es seen' h
            e he2 x hx
      · rw [if_neg hsk] at h
        cases hres : goH heap fuel v (childKey ns k) seen acc with
        | error err =>
            rw [hres] at h
            simp [Bind.bind, Except.bind] at h
        | ok res =>
            rw [hres] at h
            simp only [Bind.bind, Except.bind] at h
            have h1 : res.2 = seen :=
              goH_restore heap fuel v _ seen acc res.1 res.2 (by rw [hres])
            simp only [List.map_cons, List.mem_cons] at he
            rcases he with rfl | he2
            · exact goH_ok_sound heap fuel e _ seen acc res.1 res.2 (by rw [hres]) x hx
            · have := goHKeyed_ok_sound heap fuel rest skipUndef ns res.2 res.1 es seen' h
                e he2 x hx
              exact ⟨by rw [h1] at this; exact this.1, this.2⟩

end

/-- C10 counterexample: the claim says a top-level Date leaf always appends
one entry keyed `"undefined"` rather than raising, but a top-level invalid
date (`new Date(NaN)`) makes the source throw `RangeError: Invalid time
value` from `toISOString()` (line 78) and nothing is appended. -/
theorem toplevel_invalid_date_counterexample :
    fromObjectH [HNode.ndateInvalid] (HVal.ref 0) = .error .invalidDate := by
  simp [fromObjectH, goH, nsKeyStr]

/-- C10 amended: at top level (absent namespace), a leaf value is not
skipped — `form.append(namespace!, ...)` coerces the absent namespace to the
string `"undefined"`, so exactly one entry with key `"undefined"` is appended
for a string, number, boolean, blob, or valid date.  (An invalid date instead
throws from `toISOString()`: see the counterexample.) -/
theorem top_level_leaf_key_undefined :
    (∀ s, fromObject (.vstr s) = .ok [("undefined", .fstr s)]) ∧
      (∀ s, fromObject (.vnum s) = .ok [("undefined", .fstr s)]) ∧
      (∀ b, fromObject (.vbool b) =
        .ok [("undefined", .fstr (if b then "true" else "false"))]) ∧
      (∀ id, fromObject (.vblob id) = .ok [("undefined", .fblob id)]) ∧
      (∀ iso, fromObjectH [HNode.ndate iso] (HVal.ref 0) =
        .ok ([("undefined", .fstr iso)], [])) := by
  refine ⟨?_, ?_, ?_, ?_, ?_⟩ <;> intro x
  · rw [fromObject_eq_pure]
    simp [pureEntries, nsKeyStr]
  · rw [fromObject_eq_pure]
    simp [pureEntries, nsKeyStr]
  · rw [fromObject_eq_pure]
    simp [pureEntries, nsKeyStr]
  · rw [fromObject_eq_pure]
    simp [pureEntries, nsKeyStr]
  · simp [fromObjectH, goH, nsKeyStr]

section DecodeSanity

example : keysOf "a[0]" = ["a", "0"] := by decide
example : keysOf "items[]" = ["items"] := by decide
example : keysOf "" = [] := by decide
example : keysOf "]]a[[b" = ["a", "b"] := by decide

example :
    toObject [("tag", .fstr "a"), ("tag", .fstr "b")] =
      .dobj [("tag", .darr [some (.dstr "a"), some (.dstr "b")] [])] := by rfl

example :
    toObject [("items[]", .fstr "x"), ("items[]", .fstr "y")] =
      .dobj [("items", .darr [some (.dstr "x"), some (.dstr "y")] [])] := by rfl

example :
    toObject [("items[]", .fstr "x")] = .dobj [("items", .dstr "x")] := by rfl

example :
    toObject [("a[0]", .fstr "x")] = .dobj [("a", .dobj [("0", .dstr "x")])] := by rfl

example :
    toObject [("a[b]", .fstr "1"), ("a", .fstr "2")] =
      .dobj [("a", .darr [some (.dobj [("b", .dstr "1")]), some (.dstr "2")] [])] := by rfl

example :
    toObject [("user[name]", .fstr "Alice"), ("user[age]", .fstr "30")] =
      .dobj [("user", .dobj [("name", .dstr "Alice"), ("age", .dstr "30")])] := by rfl

end DecodeSanity
